import Mathlib

/-!
Verification of the Kruskal minimum-spanning-tree module
(`DisjointSet` union-find with path compression and union by rank, and
`kruskalMST`), shallowly embedded from the JavaScript source.

Modelling conventions:
* A union-find node is a JavaScript value that is either a vertex
  identifier (a string) or `undefined`; we embed it as `JV := Option String`
  with `none` playing `undefined`.  `Map.get` on an absent key yields
  `undefined`, so the `parent` table is embedded as a total function
  `JV → JV` whose value on unregistered keys is `none`; this is
  observationally exact because the code only ever reads the table through
  `get`.  The insertion-ordered key set of the `parent` map is tracked in a
  separate `keys` list; it is used only to bound the fuel of the recursive
  `find`.
* A rank read is either `undefined` (absent key), an integer, or `NaN`
  (produced by `undefined + 1` or `NaN + 1`).  Inside this program
  `undefined` and `NaN` ranks are observationally identical: both compare
  `false` under `<` in either direction and both turn into `NaN` under
  `+ 1`.  We therefore embed rank values as `Option ℤ`, with `none`
  covering both `undefined` and `NaN`.
* Edge weights are JavaScript numbers; `some q` embeds an ordinary
  (rational-valued) number and `none` embeds `NaN`/`undefined`, which
  propagate through `-` and `+` and compare `false` under `<`.
  The sort comparator `a.weight - b.weight` is coerced by `SortCompare`
  to `+0` when it is `NaN`.
* `Array.prototype.sort` is stable (ECMAScript 2019); we embed it as a
  stable insertion sort with the comparator above.
* The recursive `find` is embedded with explicit fuel, returning `none`
  when the fuel runs out; `keys.length + 2` fuel is proved sufficient on
  every state `kruskalMST` can reach.
-/

/-- A union-find node: a string vertex identifier or JS `undefined`. -/
abbrev JV := Option String

/-- A JS numeric value: `some q` an ordinary number, `none` = `NaN`/`undefined`. -/
abbrev JNum := Option ℚ

/-- JS `+` on numbers (`NaN`/`undefined` propagate). -/
def jadd : JNum → JNum → JNum
  | some a, some b => some (a + b)
  | _, _ => none

/-- JS `-` on numbers (`NaN`/`undefined` propagate). -/
def jsub : JNum → JNum → JNum
  | some a, some b => some (a - b)
  | _, _ => none

/-- A rank value: `some k` an integer, `none` = `undefined`-or-`NaN`. -/
abbrev JRank := Option ℤ

/-- JS `<` on rank values: any comparison involving `undefined`/`NaN` is false. -/
def rlt : JRank → JRank → Bool
  | some a, some b => decide (a < b)
  | _, _ => false

/-- JS `+ 1` on rank values: `undefined + 1` and `NaN + 1` are `NaN`. -/
def radd1 : JRank → JRank
  | some a => some (a + 1)
  | none => none

/-- State of the `DisjointSet` class: the `parent` map, the `rank` map and
the key set of the `parent` map (tracked only to bound recursion fuel). -/
structure DisjointSet where
  parent : JV → JV
  rank : JV → JRank
  keys : List JV

/-- `this.parent.set(x, v)`. -/
def pset (s : DisjointSet) (x v : JV) : DisjointSet where
  parent := fun y => if y = x then v else s.parent y
  rank := s.rank
  keys := if x ∈ s.keys then s.keys else s.keys ++ [x]

/-- `this.rank.set(x, v)`. -/
def rset (s : DisjointSet) (x : JV) (v : JRank) : DisjointSet where
  parent := s.parent
  rank := fun y => if y = x then v else s.rank y
  keys := s.keys

/-- The `DisjointSet` constructor: `parent.set(e, e); rank.set(e, 0)` for
each element. -/
def DisjointSet.init (elements : List String) : DisjointSet :=
  elements.foldl (fun s e => rset (pset s (some e) (some e)) (some e) (some 0))
    ⟨fun _ => none, fun _ => none, []⟩

/-- The recursive body of `find`, with explicit fuel:
`if (parent.get(x) !== x) { parent.set(x, find(parent.get(x))); } return parent.get(x);` -/
def findF : Nat → DisjointSet → JV → Option (JV × DisjointSet)
  | 0, _, _ => none
  | n + 1, s, x =>
    if s.parent x = x then
      some (x, s)
    else
      match findF n s (s.parent x) with
      | none => none
      | some (r, s1) =>
        let s2 := pset s1 x r
        some (s2.parent x, s2)

/-- `find(x)`, run with fuel `keys.length + 2` (proved sufficient on all
reachable states). -/
def DisjointSet.find (s : DisjointSet) (x : JV) : Option (JV × DisjointSet) :=
  findF (s.keys.length + 2) s x

/-- `union(x, y)`: find both roots, return `false` if equal, otherwise
attach by rank (ties attach `rootY` under `rootX` and bump the rank). -/
def DisjointSet.union (s : DisjointSet) (x y : JV) : Option (Bool × DisjointSet) :=
  match s.find x with
  | none => none
  | some (rootX, s1) =>
    match s1.find y with
    | none => none
    | some (rootY, s2) =>
      if rootX = rootY then some (false, s2)
      else
        let rankX := s2.rank rootX
        let rankY := s2.rank rootY
        if rlt rankX rankY then some (true, pset s2 rootX rootY)
        else if rlt rankY rankX then some (true, pset s2 rootY rootX)
        else some (true, rset (pset s2 rootY rootX) rootX (radd1 rankX))

/-- An edge `{u, v, weight}`. -/
structure Edge where
  u : String
  v : String
  weight : JNum
deriving DecidableEq

/-- The value of the sort comparator `(a, b) => a.weight - b.weight`,
after the `SortCompare` coercion of `NaN` to `+0`. -/
def cmpVal (a b : Edge) : ℚ := (jsub a.weight b.weight).getD 0

/-- "`a` does not have to go after `b`" for the stable sort: the comparator
does not put `b` strictly before `a`. -/
def eleB (a b : Edge) : Bool := decide (cmpVal a b ≤ 0)

/-- Stable insertion of `a` into an already sorted list. -/
def insertE (a : Edge) : List Edge → List Edge
  | [] => [a]
  | b :: l => if eleB a b then a :: b :: l else b :: insertE a l

/-- `edges.slice().sort((a, b) => a.weight - b.weight)`: a stable sort of a
copy of the edge list by the weight comparator. -/
def sortEdges : List Edge → List Edge
  | [] => []
  | a :: l => insertE a (sortEdges l)

/-- The main scan of `kruskalMST`: for each edge in order, call
`union(edge.u, edge.v)`; on `true` append the edge and add its weight. -/
def kruskalFold : DisjointSet → List Edge → JNum → List Edge →
    Option (DisjointSet × List Edge × JNum)
  | s, sel, tc, [] => some (s, sel, tc)
  | s, sel, tc, e :: rest =>
    match s.union (some e.u) (some e.v) with
    | none => none
    | some (true, s1) => kruskalFold s1 (sel ++ [e]) (jadd tc e.weight) rest
    | some (false, s1) => kruskalFold s1 sel tc rest

/-- `kruskalMST(vertices, edges)`: sort the edges, initialise the forest,
scan, and return `{ mstEdges, totalCost }`. -/
def kruskalMST (vertices : List String) (edges : List Edge) :
    Option (List Edge × JNum) :=
  match kruskalFold (DisjointSet.init vertices) [] (some 0) (sortEdges edges) with
  | none => none
  | some (_, sel, tc) => some (sel, tc)

/-! ### Basic facts about the map operations -/

theorem pset_parent_same (s : DisjointSet) (x v : JV) : (pset s x v).parent x = v := by
  simp [pset]

theorem pset_parent_other (s : DisjointSet) (x v y : JV) (h : y ≠ x) :
    (pset s x v).parent y = s.parent y := by
  simp [pset, h]

theorem pset_rank (s : DisjointSet) (x v : JV) : (pset s x v).rank = s.rank := rfl

theorem pset_keys_mem (s : DisjointSet) (x v y : JV) (h : y ∈ s.keys) :
    y ∈ (pset s x v).keys := by
  by_cases hx : x ∈ s.keys <;> simp [pset, hx, h]

theorem pset_keys_self (s : DisjointSet) (x v : JV) : x ∈ (pset s x v).keys := by
  by_cases hx : x ∈ s.keys <;> simp [pset, hx]

theorem pset_keys_cases (s : DisjointSet) (x v : JV) :
    (pset s x v).keys = s.keys ∨ (pset s x v).keys = s.keys ++ [x] := by
  by_cases hx : x ∈ s.keys <;> simp [pset, hx]

theorem rset_parent (s : DisjointSet) (x : JV) (v : JRank) :
    (rset s x v).parent = s.parent := rfl

theorem rset_keys (s : DisjointSet) (x : JV) (v : JRank) :
    (rset s x v).keys = s.keys := rfl

theorem rset_rank_same (s : DisjointSet) (x : JV) (v : JRank) :
    (rset s x v).rank x = v := by
  simp [rset]

theorem rset_rank_other (s : DisjointSet) (x : JV) (v : JRank) (y : JV) (h : y ≠ x) :
    (rset s x v).rank y = s.rank y := by
  simp [rset, h]

/-! ### The pure parent chase

`chaseF p n x` follows parent links for at most `n` steps; it is the
mutation-free shadow of `find` used to state all specifications. -/

/-- Follow `p`-links from `x` for at most `n` steps. -/
def chaseF (p : JV → JV) : Nat → JV → JV
  | 0, x => x
  | n + 1, x => if p x = x then x else chaseF p n (p x)

/-- `x` reaches a `p`-fixpoint within `n` steps. -/
def FixIn (p : JV → JV) (x : JV) (n : Nat) : Prop :=
  p (chaseF p n x) = chaseF p n x

theorem chase_of_fix (p : JV → JV) (x : JV) (hx : p x = x) :
    ∀ n, chaseF p n x = x := by
  intro n
  cases n with
  | zero => rfl
  | succ n => simp [chaseF, hx]

theorem chase_succ_of_ne (p : JV → JV) (x : JV) (hx : p x ≠ x) (n : Nat) :
    chaseF p (n + 1) x = chaseF p n (p x) := by
  simp [chaseF, hx]

theorem fixIn_zero_iff (p : JV → JV) (x : JV) : FixIn p x 0 ↔ p x = x := Iff.rfl

theorem chase_eq_of_fixIn (p : JV → JV) :
    ∀ n x, FixIn p x n → ∀ m, n ≤ m → chaseF p m x = chaseF p n x := by
  intro n
  induction n with
  | zero =>
    intro x hfix m _
    exact chase_of_fix p x hfix m
  | succ n ih =>
    intro x hfix m hm
    by_cases hx : p x = x
    · rw [chase_of_fix p x hx, chase_of_fix p x hx]
    · obtain ⟨m', rfl⟩ : ∃ m', m = m' + 1 := ⟨m - 1, by omega⟩
      rw [chase_succ_of_ne p x hx, chase_succ_of_ne p x hx]
      have hfix' : FixIn p (p x) n := by
        unfold FixIn at hfix
        rwa [chase_succ_of_ne p x hx] at hfix
      exact ih (p x) hfix' m' (by omega)

theorem fixIn_mono (p : JV → JV) (n : Nat) (x : JV) (hfix : FixIn p x n) :
    ∀ m, n ≤ m → FixIn p x m := by
  intro m hm
  unfold FixIn
  rw [chase_eq_of_fixIn p n x hfix m hm]
  exact hfix

/-! ### The well-formedness invariant

A state is well-formed when some height function strictly decreases along
parent links, parent values of non-fixpoints lie in the key set (plus
`undefined`), and unregistered nodes read back the `Map.get` default. -/

/-- `h` strictly decreases along parent links, and parent links of
non-fixpoints land in `none :: keys`. -/
def Downhill (s : DisjointSet) (h : JV → Nat) : Prop :=
  ∀ x, s.parent x ≠ x → h (s.parent x) < h x ∧ s.parent x ∈ (none :: s.keys)

/-- Nodes outside the parent map read back `undefined`. -/
def OutsideNone (s : DisjointSet) : Prop :=
  ∀ x, x ∉ (none :: s.keys) → s.parent x = none

/-- Well-formed union-find state. -/
def WFS (s : DisjointSet) : Prop :=
  OutsideNone s ∧ ∃ h, Downhill s h

theorem countP_mono_of_imp {α : Type} (l : List α) (f g : α → Bool)
    (h : ∀ a ∈ l, f a = true → g a = true) : l.countP f ≤ l.countP g := by
  induction l with
  | nil => simp
  | cons a l ih =>
    rw [List.countP_cons, List.countP_cons]
    have h1 := ih (fun a ha => h a (List.mem_cons_of_mem _ ha))
    by_cases ha : f a = true
    · have hga := h a (List.mem_cons_self a l) ha
      simp only [ha, hga, if_pos]
      omega
    · simp only [Bool.not_eq_true] at ha
      simp only [ha]
      by_cases hg : g a = true <;> simp only [hg] <;> simp <;> omega

theorem countP_lt_of_mem {α : Type} (l : List α) (f g : α → Bool) (a : α)
    (ha : a ∈ l) (haf : f a = false) (hag : g a = true)
    (h : ∀ b ∈ l, f b = true → g b = true) : l.countP f < l.countP g := by
  induction l with
  | nil => simp at ha
  | cons b l ih =>
    rw [List.countP_cons, List.countP_cons]
    rcases List.mem_cons.1 ha with rfl | hal
    · have h1 := countP_mono_of_imp l f g (fun c hc => h c (List.mem_cons_of_mem _ hc))
      simp [haf, hag]
      omega
    · have h1 := ih hal (fun c hc => h c (List.mem_cons_of_mem _ hc))
      by_cases hbf : f b = true
      · have := h b (List.mem_cons_self b l) hbf
        simp [hbf, this]
        omega
      · simp only [Bool.not_eq_true] at hbf
        simp only [hbf]
        by_cases hbg : g b = true <;> simp [hbg] <;> omega

/-- The chain-counting measure: registered nodes strictly below `x`. -/
def cnt (s : DisjointSet) (h : JV → Nat) (x : JV) : Nat :=
  (none :: s.keys).countP (fun z => decide (h z < h x))

theorem reach_cnt (s : DisjointSet) (h : JV → Nat) (hd : Downhill s h) :
    ∀ n x, cnt s h x ≤ n → FixIn s.parent x (cnt s h x) := by
  intro n
  induction n with
  | zero =>
    intro x hx
    by_cases hfx : s.parent x = x
    · unfold FixIn
      rw [chase_of_fix s.parent x hfx]
      exact hfx
    · obtain ⟨hlt, hmem⟩ := hd x hfx
      have hpos : 0 < cnt s h x := by
        have hcc := countP_lt_of_mem (none :: s.keys) (fun _ => false)
          (fun z => decide (h z < h x)) (s.parent x) hmem rfl (by simpa using hlt)
          (by simp)
        simpa [cnt] using hcc
      exact absurd (Nat.lt_of_lt_of_le hpos hx) (Nat.lt_irrefl 0)
  | succ n ih =>
    intro x hx
    by_cases hfx : s.parent x = x
    · unfold FixIn
      rw [chase_of_fix s.parent x hfx]
      exact hfx
    · obtain ⟨hlt, hmem⟩ := hd x hfx
      have hsub : cnt s h (s.parent x) < cnt s h x := by
        refine countP_lt_of_mem _ _ _ (s.parent x) hmem (by simp) (by simpa using hlt) ?_
        intro b _ hb
        simp only [decide_eq_true_eq] at hb ⊢
        omega
      have hfix' : FixIn s.parent (s.parent x) (cnt s h (s.parent x)) :=
        ih (s.parent x) (by omega)
      have hfix2 : FixIn s.parent (s.parent x) (cnt s h x - 1) :=
        fixIn_mono _ _ _ hfix' _ (by omega)
      unfold FixIn
      have hc : cnt s h x = (cnt s h x - 1) + 1 := by omega
      rw [hc, chase_succ_of_ne s.parent x hfx]
      exact hfix2

theorem cnt_le (s : DisjointSet) (h : JV → Nat) (x : JV) :
    cnt s h x ≤ s.keys.length + 1 := by
  calc cnt s h x ≤ (none :: s.keys).length := List.countP_le_length _
  _ = s.keys.length + 1 := by simp

/-- In a well-formed state every node reaches a fixpoint within
`keys.length + 1` steps. -/
theorem reach_of_downhill (s : DisjointSet) (h : JV → Nat) (hd : Downhill s h)
    (x : JV) : FixIn s.parent x (s.keys.length + 1) :=
  fixIn_mono _ _ _ (reach_cnt s h hd (cnt s h x) x le_rfl) _ (cnt_le s h x)

/-! ### The root function and its stability -/

/-- The root of `x` in state `s`: the parent chase run with the same fuel
bound as `find`. -/
def rootOf (s : DisjointSet) (x : JV) : JV :=
  chaseF s.parent (s.keys.length + 2) x

theorem root_eq_chase (s : DisjointSet) (h : JV → Nat) (hd : Downhill s h)
    (x : JV) (n : Nat) (hn : s.keys.length + 1 ≤ n) :
    chaseF s.parent n x = rootOf s x := by
  have hfix := reach_of_downhill s h hd x
  unfold rootOf
  rw [chase_eq_of_fixIn s.parent _ x hfix n hn,
    chase_eq_of_fixIn s.parent _ x hfix (s.keys.length + 2) (by omega)]

theorem root_fix (s : DisjointSet) (h : JV → Nat) (hd : Downhill s h) (x : JV) :
    s.parent (rootOf s x) = rootOf s x := by
  have hfix := reach_of_downhill s h hd x
  have := fixIn_mono s.parent _ x hfix (s.keys.length + 2) (by omega)
  exact this

theorem root_of_fix (s : DisjointSet) (x : JV) (hx : s.parent x = x) :
    rootOf s x = x :=
  chase_of_fix s.parent x hx _

theorem root_step (s : DisjointSet) (h : JV → Nat) (hd : Downhill s h)
    (x : JV) (hx : s.parent x ≠ x) : rootOf s x = rootOf s (s.parent x) := by
  unfold rootOf
  rw [chase_succ_of_ne s.parent x hx]
  exact root_eq_chase s h hd (s.parent x) (s.keys.length + 1) le_rfl

theorem root_root (s : DisjointSet) (h : JV → Nat) (hd : Downhill s h) (x : JV) :
    rootOf s (rootOf s x) = rootOf s x :=
  root_of_fix s _ (root_fix s h hd x)

theorem chase_h_le (p : JV → JV) (h : JV → Nat)
    (hd : ∀ x, p x ≠ x → h (p x) < h x) :
    ∀ n x, h (chaseF p n x) ≤ h x := by
  intro n
  induction n with
  | zero => intro x; exact le_rfl
  | succ n ih =>
    intro x
    by_cases hx : p x = x
    · rw [chase_of_fix p x hx]
    · rw [chase_succ_of_ne p x hx]
      exact le_trans (ih (p x)) (le_of_lt (hd x hx))

theorem root_h_lt (s : DisjointSet) (h : JV → Nat) (hd : Downhill s h)
    (x : JV) (hx : s.parent x ≠ x) : h (rootOf s x) < h x := by
  rw [root_step s h hd x hx]
  have h1 : h (rootOf s (s.parent x)) ≤ h (s.parent x) := by
    unfold rootOf
    exact chase_h_le s.parent h (fun z hz => (hd z hz).1) _ (s.parent x)
  exact lt_of_le_of_lt h1 (hd x hx).1

theorem root_ne_of_nonfix (s : DisjointSet) (h : JV → Nat) (hd : Downhill s h)
    (x : JV) (hx : s.parent x ≠ x) : rootOf s x ≠ x := by
  intro heq
  have := root_h_lt s h hd x hx
  rw [heq] at this
  exact Nat.lt_irrefl _ this

theorem chase_mem (s : DisjointSet) (h : JV → Nat) (hd : Downhill s h) :
    ∀ n x, x ∈ (none :: s.keys) → chaseF s.parent n x ∈ (none :: s.keys) := by
  intro n
  induction n with
  | zero => intro x hx; exact hx
  | succ n ih =>
    intro x hx
    by_cases hfx : s.parent x = x
    · rwa [chase_of_fix s.parent x hfx]
    · rw [chase_succ_of_ne s.parent x hfx]
      exact ih (s.parent x) (hd x hfx).2

theorem root_mem (s : DisjointSet) (h : JV → Nat) (hd : Downhill s h)
    (x : JV) (hx : s.parent x ≠ x) : rootOf s x ∈ (none :: s.keys) := by
  rw [root_step s h hd x hx]
  exact chase_mem s h hd _ (s.parent x) (hd x hx).2

/-! ### A single path-compression write preserves the forest -/

theorem pset_root_downhill (s : DisjointSet) (h : JV → Nat) (hd : Downhill s h)
    (x : JV) (hx : s.parent x ≠ x) :
    Downhill (pset s x (rootOf s x)) h := by
  intro z hz
  by_cases hzx : z = x
  · rw [hzx, pset_parent_same]
    refine ⟨root_h_lt s h hd x hx, ?_⟩
    have hm := root_mem s h hd x hx
    rcases List.mem_cons.1 hm with hm0 | hm1
    · exact List.mem_cons.2 (Or.inl hm0)
    · exact List.mem_cons.2 (Or.inr (pset_keys_mem s x _ _ hm1))
  · rw [pset_parent_other s x _ z hzx] at hz ⊢
    obtain ⟨h1, h2⟩ := hd z hz
    refine ⟨h1, ?_⟩
    rcases List.mem_cons.1 h2 with hm0 | hm1
    · exact List.mem_cons.2 (Or.inl hm0)
    · exact List.mem_cons.2 (Or.inr (pset_keys_mem s x _ _ hm1))

theorem pset_root_outside (s : DisjointSet) (hs : OutsideNone s)
    (x v : JV) : OutsideNone (pset s x v) := by
  intro z hz
  have hzx : z ≠ x := by
    intro heq
    exact hz (by rw [heq]; exact List.mem_cons.2 (Or.inr (pset_keys_self s x v)))
  rw [pset_parent_other s x v z hzx]
  refine hs z ?_
  intro hmem
  rcases List.mem_cons.1 hmem with hm0 | hm1
  · exact hz (List.mem_cons.2 (Or.inl hm0))
  · exact hz (List.mem_cons.2 (Or.inr (pset_keys_mem s x v z hm1)))

theorem pset_root_rootOf (s : DisjointSet) (h : JV → Nat) (hd : Downhill s h)
    (x : JV) (hx : s.parent x ≠ x) :
    ∀ n y, h y ≤ n → rootOf (pset s x (rootOf s x)) y = rootOf s y := by
  have hd' := pset_root_downhill s h hd x hx
  intro n
  induction n with
  | zero =>
    intro y hy
    by_cases hfy : (pset s x (rootOf s x)).parent y = y
    · rw [root_of_fix _ y hfy]
      have hyx : y ≠ x := by
        intro heq
        subst heq
        rw [pset_parent_same] at hfy
        exact root_ne_of_nonfix s h hd y hx hfy
      rw [pset_parent_other s x _ y hyx] at hfy
      rw [root_of_fix s y hfy]
    · obtain ⟨hlt, _⟩ := hd' y hfy
      exact absurd (Nat.lt_of_lt_of_le hlt hy) (Nat.not_lt_zero _)
  | succ n ih =>
    intro y hy
    by_cases hfy : (pset s x (rootOf s x)).parent y = y
    · rw [root_of_fix _ y hfy]
      have hyx : y ≠ x := by
        intro heq
        subst heq
        rw [pset_parent_same] at hfy
        exact root_ne_of_nonfix s h hd y hx hfy
      rw [pset_parent_other s x _ y hyx] at hfy
      rw [root_of_fix s y hfy]
    · rw [root_step _ h hd' y hfy]
      by_cases hyx : y = x
      · subst hyx
        rw [pset_parent_same]
        have hrr : (pset s y (rootOf s y)).parent (rootOf s y) = rootOf s y := by
          rw [pset_parent_other s y _ _ (root_ne_of_nonfix s h hd y hx)]
          exact root_fix s h hd y
        rw [root_of_fix _ _ hrr]
      · rw [pset_parent_other s x _ y hyx] at hfy ⊢
        have hlt : h (s.parent y) < h y := (hd y hfy).1
        rw [ih (s.parent y) (by omega)]
        exact (root_step s h hd y hfy).symm

/-! ### The `find` specification -/

theorem findF_spec (s : DisjointSet) (h : JV → Nat) (hs : OutsideNone s)
    (hd : Downhill s h) :
    ∀ n x, FixIn s.parent x n →
    ∃ s', findF (n + 1) s x = some (rootOf s x, s') ∧
      OutsideNone s' ∧ Downhill s' h ∧
      (∀ y, rootOf s' y = rootOf s y) ∧
      (∀ y, s'.rank y = s.rank y) ∧
      (∃ ks, s'.keys = s.keys ++ ks) ∧
      (∀ z, s'.parent z ≠ s.parent z → h z ≤ h x) := by
  intro n
  induction n with
  | zero =>
    intro x hfix
    rw [fixIn_zero_iff] at hfix
    refine ⟨s, ?_, hs, hd, fun y => rfl, fun y => rfl, ⟨[], by simp⟩,
      fun z hz => absurd rfl hz⟩
    rw [root_of_fix s x hfix]
    simp [findF, hfix]
  | succ n ih =>
    intro x hfix
    by_cases hpx : s.parent x = x
    · refine ⟨s, ?_, hs, hd, fun y => rfl, fun y => rfl, ⟨[], by simp⟩,
        fun z hz => absurd rfl hz⟩
      rw [root_of_fix s x hpx]
      simp [findF, hpx]
    · have hfix' : FixIn s.parent (s.parent x) n := by
        unfold FixIn at hfix ⊢
        rwa [chase_succ_of_ne s.parent x hpx] at hfix
      obtain ⟨s1, heq1, hs1, hd1, hroot1, hrank1, ⟨ks1, hkeys1⟩, hmod1⟩ :=
        ih (s.parent x) hfix'
      have hp1 : s1.parent x = s.parent x := by
        by_contra hne
        have := hmod1 x hne
        exact absurd (Nat.lt_of_lt_of_le (hd x hpx).1 this) (Nat.lt_irrefl _)
      have hx1 : s1.parent x ≠ x := by rw [hp1]; exact hpx
      have hrx : rootOf s (s.parent x) = rootOf s1 x := by
        rw [hroot1 x, root_step s h hd x hpx]
      refine ⟨pset s1 x (rootOf s (s.parent x)), ?_, ?_, ?_, ?_, ?_, ?_, ?_⟩
      · show findF (n + 1 + 1) s x = _
        rw [show findF (n + 1 + 1) s x =
          (if s.parent x = x then some (x, s) else
            match findF (n + 1) s (s.parent x) with
            | none => none
            | some (r, s1) => some ((pset s1 x r).parent x, pset s1 x r)) from rfl]
        rw [if_neg hpx, heq1]
        show some ((pset s1 x (rootOf s (s.parent x))).parent x,
          pset s1 x (rootOf s (s.parent x))) = _
        rw [pset_parent_same, root_step s h hd x hpx]
      · rw [hrx]
        exact pset_root_outside s1 hs1 x _
      · rw [hrx]
        exact pset_root_downhill s1 h hd1 x hx1
      · intro y
        rw [hrx]
        rw [pset_root_rootOf s1 h hd1 x hx1 (h y) y le_rfl]
        exact hroot1 y
      · intro y
        rw [show (pset s1 x (rootOf s (s.parent x))).rank y = s1.rank y from rfl]
        exact hrank1 y
      · rcases pset_keys_cases s1 x (rootOf s (s.parent x)) with hk | hk
        · exact ⟨ks1, by rw [hk, hkeys1]⟩
        · exact ⟨ks1 ++ [x], by rw [hk, hkeys1, List.append_assoc]⟩
      · intro z hz
        by_cases hzx : z = x
        · rw [hzx]
        · rw [pset_parent_other s1 x _ z hzx] at hz
          by_cases hz1 : s1.parent z = s.parent z
          · rw [hz1] at hz
            exact absurd rfl hz
          · exact le_trans (hmod1 z hz1) (le_of_lt (hd x hpx).1)

/-- Specification of `find` on a well-formed state: it succeeds, returns
the chase root, preserves well-formedness, the root function (hence the
partition), the ranks, and only extends the key list; every modified
parent entry lies on the searched path (height at most `h x`). -/
theorem find_spec (s : DisjointSet) (h : JV → Nat) (hs : OutsideNone s)
    (hd : Downhill s h) (x : JV) :
    ∃ s', s.find x = some (rootOf s x, s') ∧
      OutsideNone s' ∧ Downhill s' h ∧
      (∀ y, rootOf s' y = rootOf s y) ∧
      (∀ y, s'.rank y = s.rank y) ∧
      (∃ ks, s'.keys = s.keys ++ ks) ∧
      (∀ z, s'.parent z ≠ s.parent z → h z ≤ h x) := by
  have hfix := reach_of_downhill s h hd x
  obtain ⟨s', heq, rest⟩ := findF_spec s h hs hd (s.keys.length + 1) x hfix
  exact ⟨s', heq, rest⟩

/-! ### Attaching one root under another -/

theorem fix_mem (s : DisjointSet) (hs : OutsideNone s) (r : JV)
    (hr : s.parent r = r) : r = none ∨ r ∈ s.keys := by
  by_cases hmem : r ∈ (none :: s.keys)
  · rcases List.mem_cons.1 hmem with h0 | h1
    · exact Or.inl h0
    · exact Or.inr h1
  · have := hs r hmem
    rw [hr] at this
    exact Or.inl this

theorem attach_downhill (s : DisjointSet) (h : JV → Nat) (hs : OutsideNone s)
    (hd : Downhill s h) (a b : JV) (ha : s.parent a = a) (hb : s.parent b = b)
    (hab : a ≠ b) :
    Downhill (pset s a b)
      (fun z => if rootOf s z = a then h z + h b + 1 else h z) := by
  intro z hz
  by_cases hza : z = a
  · rw [hza, pset_parent_same]
    have h1 : rootOf s b = b := root_of_fix s b hb
    have h2 : rootOf s a = a := root_of_fix s a ha
    constructor
    · show (if rootOf s b = a then h b + h b + 1 else h b) <
        (if rootOf s a = a then h a + h b + 1 else h a)
      rw [h1, h2, if_neg (fun q => hab q.symm), if_pos rfl]
      omega
    · rcases fix_mem s hs b hb with h0 | h1
      · rw [h0]; exact List.mem_cons.2 (Or.inl rfl)
      · exact List.mem_cons.2 (Or.inr (pset_keys_mem s a b b h1))
  · rw [pset_parent_other s a b z hza] at hz ⊢
    obtain ⟨h1, h2⟩ := hd z hz
    have hroot : rootOf s z = rootOf s (s.parent z) := root_step s h hd z hz
    constructor
    · show (if rootOf s (s.parent z) = a then h (s.parent z) + h b + 1
        else h (s.parent z)) < (if rootOf s z = a then h z + h b + 1 else h z)
      rw [← hroot]
      by_cases hc : rootOf s z = a
      · rw [if_pos hc, if_pos hc]
        omega
      · rw [if_neg hc, if_neg hc]
        exact h1
    · rcases List.mem_cons.1 h2 with hm0 | hm1
      · exact List.mem_cons.2 (Or.inl hm0)
      · exact List.mem_cons.2 (Or.inr (pset_keys_mem s a b _ hm1))

theorem attach_rootOf (s : DisjointSet) (h : JV → Nat) (hs : OutsideNone s)
    (hd : Downhill s h) (a b : JV) (ha : s.parent a = a) (hb : s.parent b = b)
    (hab : a ≠ b) :
    ∀ n z, h z ≤ n →
      rootOf (pset s a b) z = if rootOf s z = a then b else rootOf s z := by
  have hd' := attach_downhill s h hs hd a b ha hb hab
  intro n
  induction n with
  | zero =>
    intro z hz
    by_cases hfz : (pset s a b).parent z = z
    · have hza : z ≠ a := by
        intro heq
        rw [heq, pset_parent_same] at hfz
        exact hab hfz.symm
      rw [root_of_fix _ z hfz]
      rw [pset_parent_other s a b z hza] at hfz
      rw [root_of_fix s z hfz, if_neg hza]
    · by_cases hza : z = a
      · rw [hza, root_step _ _ hd' a (by rw [pset_parent_same]; exact fun q => hab q.symm),
          pset_parent_same]
        have hbfix : (pset s a b).parent b = b := by
          rw [pset_parent_other s a b b (fun q => hab q.symm)]
          exact hb
        rw [root_of_fix _ b hbfix, root_of_fix s a ha, if_pos rfl]
      · rw [pset_parent_other s a b z hza] at hfz
        obtain ⟨h1, _⟩ := hd z hfz
        exact absurd (Nat.lt_of_lt_of_le h1 hz) (Nat.not_lt_zero _)
  | succ n ih =>
    intro z hz
    by_cases hfz : (pset s a b).parent z = z
    · have hza : z ≠ a := by
        intro heq
        rw [heq, pset_parent_same] at hfz
        exact hab hfz.symm
      rw [root_of_fix _ z hfz]
      rw [pset_parent_other s a b z hza] at hfz
      rw [root_of_fix s z hfz, if_neg hza]
    · by_cases hza : z = a
      · rw [hza, root_step _ _ hd' a (by rw [pset_parent_same]; exact fun q => hab q.symm),
          pset_parent_same]
        have hbfix : (pset s a b).parent b = b := by
          rw [pset_parent_other s a b b (fun q => hab q.symm)]
          exact hb
        rw [root_of_fix _ b hbfix, root_of_fix s a ha, if_pos rfl]
      · have hfz' : s.parent z ≠ z := by
          rwa [pset_parent_other s a b z hza] at hfz
        rw [root_step _ _ hd' z hfz, pset_parent_other s a b z hza]
        have h1 : h (s.parent z) < h z := (hd z hfz').1
        rw [ih (s.parent z) (by omega)]
        rw [← root_step s h hd z hfz']

/-! ### The `union` specification -/

/-- The surviving root when `union` merges distinct roots `rx` and `ry`
whose stored ranks are read from `s`. -/
def uWinner (s : DisjointSet) (rx ry : JV) : JV :=
  if rlt (s.rank rx) (s.rank ry) then ry else rx

/-- The root attached under the other. -/
def uLoser (s : DisjointSet) (rx ry : JV) : JV :=
  if rlt (s.rank rx) (s.rank ry) then rx else ry

/-- Whether the equal-rank branch (which bumps the surviving rank) runs. -/
def uBump (s : DisjointSet) (rx ry : JV) : Bool :=
  !(rlt (s.rank rx) (s.rank ry)) && !(rlt (s.rank ry) (s.rank rx))

theorem union_spec_same (s : DisjointSet) (h : JV → Nat) (hs : OutsideNone s)
    (hd : Downhill s h) (x y : JV) (hxy : rootOf s x = rootOf s y) :
    ∃ s', s.union x y = some (false, s') ∧
      OutsideNone s' ∧ (∃ h2, Downhill s' h2) ∧
      (∀ z, rootOf s' z = rootOf s z) ∧
      (∀ z, s'.rank z = s.rank z) ∧
      (∃ ks, s'.keys = s.keys ++ ks) := by
  obtain ⟨s1, hf1, hs1, hd1, hroot1, hrank1, ⟨ks1, hkeys1⟩, _⟩ :=
    find_spec s h hs hd x
  obtain ⟨s2, hf2, hs2, hd2, hroot2, hrank2, ⟨ks2, hkeys2⟩, _⟩ :=
    find_spec s1 h hs1 hd1 y
  refine ⟨s2, ?_, hs2, ⟨h, hd2⟩, fun z => (hroot2 z).trans (hroot1 z),
    fun z => (hrank2 z).trans (hrank1 z),
    ⟨ks1 ++ ks2, by rw [hkeys2, hkeys1, List.append_assoc]⟩⟩
  rw [hroot1 y] at hf2
  simp only [DisjointSet.union, hf1, hf2]
  rw [if_pos hxy]

theorem union_spec_diff (s : DisjointSet) (h : JV → Nat) (hs : OutsideNone s)
    (hd : Downhill s h) (x y : JV) (hxy : rootOf s x ≠ rootOf s y) :
    ∃ s', s.union x y = some (true, s') ∧
      OutsideNone s' ∧ (∃ h2, Downhill s' h2) ∧
      (∀ z, rootOf s' z =
        if rootOf s z = uLoser s (rootOf s x) (rootOf s y)
        then uWinner s (rootOf s x) (rootOf s y) else rootOf s z) ∧
      (∀ z, s'.rank z =
        if uBump s (rootOf s x) (rootOf s y) = true ∧ z = rootOf s x
        then radd1 (s.rank (rootOf s x)) else s.rank z) ∧
      (∃ ks, s'.keys = s.keys ++ ks) := by
  obtain ⟨s1, hf1, hs1, hd1, hroot1, hrank1, ⟨ks1, hkeys1⟩, _⟩ :=
    find_spec s h hs hd x
  obtain ⟨s2, hf2, hs2, hd2, hroot2, hrank2, ⟨ks2, hkeys2⟩, _⟩ :=
    find_spec s1 h hs1 hd1 y
  set rx := rootOf s x with hrx
  set ry := rootOf s y with hry
  have hrootpres : ∀ z, rootOf s2 z = rootOf s z := fun z =>
    (hroot2 z).trans (hroot1 z)
  have hrankpres : ∀ z, s2.rank z = s.rank z := fun z =>
    (hrank2 z).trans (hrank1 z)
  have hkeyspres : ∃ ks, s2.keys = s.keys ++ ks :=
    ⟨ks1 ++ ks2, by rw [hkeys2, hkeys1, List.append_assoc]⟩
  have hfixrx : s2.parent rx = rx := by
    by_contra hne
    have := root_ne_of_nonfix s2 h hd2 rx hne
    rw [hrootpres rx, root_root s h hd x] at this
    exact this rfl
  have hfixry : s2.parent ry = ry := by
    by_contra hne
    have := root_ne_of_nonfix s2 h hd2 ry hne
    rw [hrootpres ry, root_root s h hd y] at this
    exact this rfl
  have hroots2 : ∀ z, rootOf s z = rootOf s2 z := fun z => (hrootpres z).symm
  have hunion : s.union x y =
      (if rx = ry then some (false, s2) else
        if rlt (s2.rank rx) (s2.rank ry) then some (true, pset s2 rx ry)
        else if rlt (s2.rank ry) (s2.rank rx) then some (true, pset s2 ry rx)
        else some (true, rset (pset s2 ry rx) rx (radd1 (s2.rank rx)))) := by
    rw [hroot1 y] at hf2
    simp only [DisjointSet.union, hf1, hf2]
  rw [if_neg hxy] at hunion
  by_cases hc1 : rlt (s2.rank rx) (s2.rank ry) = true
  · -- rootX attached under rootY: winner ry, loser rx
    rw [if_pos hc1] at hunion
    obtain ⟨muts⟩ : True := ⟨⟩
    have hatt := attach_rootOf s2 h hs2 hd2 rx ry hfixrx hfixry hxy
    refine ⟨pset s2 rx ry, hunion, pset_root_outside s2 hs2 rx ry,
      ⟨_, attach_downhill s2 h hs2 hd2 rx ry hfixrx hfixry hxy⟩, ?_, ?_, ?_⟩
    · intro z
      rw [hatt (h z) z le_rfl, hrootpres z]
      have hwl : uWinner s rx ry = ry ∧ uLoser s rx ry = rx := by
        unfold uWinner uLoser
        rw [← hrankpres rx, ← hrankpres ry]
        simp [hc1]
      rw [hwl.1, hwl.2]
    · intro z
      have hb : uBump s rx ry = false := by
        unfold uBump
        rw [← hrankpres rx, ← hrankpres ry]
        simp [hc1]
      rw [pset_rank, hrankpres z]
      simp [hb]
    · obtain ⟨ks0, hks0⟩ := hkeyspres
      rcases pset_keys_cases s2 rx ry with hk | hk
      · exact ⟨ks0, by rw [hk, hks0]⟩
      · exact ⟨ks0 ++ [rx], by rw [hk, hks0, List.append_assoc]⟩
  · rw [if_neg hc1] at hunion
    have hyx : ry ≠ rx := fun q => hxy q.symm
    by_cases hc2 : rlt (s2.rank ry) (s2.rank rx) = true
    · -- rootY attached under rootX: winner rx, loser ry
      rw [if_pos hc2] at hunion
      have hatt := attach_rootOf s2 h hs2 hd2 ry rx hfixry hfixrx hyx
      refine ⟨pset s2 ry rx, hunion, pset_root_outside s2 hs2 ry rx,
        ⟨_, attach_downhill s2 h hs2 hd2 ry rx hfixry hfixrx hyx⟩, ?_, ?_, ?_⟩
      · intro z
        rw [hatt (h z) z le_rfl, hrootpres z]
        have hwl : uWinner s rx ry = rx ∧ uLoser s rx ry = ry := by
          unfold uWinner uLoser
          rw [← hrankpres rx, ← hrankpres ry]
          simp only [Bool.not_eq_true] at hc1
          simp [hc1]
        rw [hwl.1, hwl.2]
      · intro z
        have hb : uBump s rx ry = false := by
          unfold uBump
          rw [← hrankpres rx, ← hrankpres ry]
          simp [hc2]
        rw [pset_rank, hrankpres z]
        simp [hb]
      · obtain ⟨ks0, hks0⟩ := hkeyspres
        rcases pset_keys_cases s2 ry rx with hk | hk
        · exact ⟨ks0, by rw [hk, hks0]⟩
        · exact ⟨ks0 ++ [ry], by rw [hk, hks0, List.append_assoc]⟩
    · -- equal-rank branch: rootY under rootX, rank of rootX bumped
      rw [if_neg hc2] at hunion
      have hatt := attach_rootOf s2 h hs2 hd2 ry rx hfixry hfixrx hyx
      have hdh' := attach_downhill s2 h hs2 hd2 ry rx hfixry hfixrx hyx
      refine ⟨rset (pset s2 ry rx) rx (radd1 (s2.rank rx)), hunion, ?_, ?_, ?_, ?_, ?_⟩
      · intro z hz
        rw [rset_keys] at hz
        rw [rset_parent]
        exact pset_root_outside s2 hs2 ry rx z hz
      · refine ⟨fun z => if rootOf s2 z = ry then h z + h rx + 1 else h z, ?_⟩
        intro z hz
        rw [rset_parent] at hz ⊢
        rw [rset_keys]
        exact hdh' z hz
      · intro z
        have hreq : rootOf (rset (pset s2 ry rx) rx (radd1 (s2.rank rx))) z =
            rootOf (pset s2 ry rx) z := rfl
        rw [hreq, hatt (h z) z le_rfl, hrootpres z]
        have hwl : uWinner s rx ry = rx ∧ uLoser s rx ry = ry := by
          unfold uWinner uLoser
          rw [← hrankpres rx, ← hrankpres ry]
          simp only [Bool.not_eq_true] at hc1
          simp [hc1]
        rw [hwl.1, hwl.2]
      · intro z
        have hb : uBump s rx ry = true := by
          unfold uBump
          rw [← hrankpres rx, ← hrankpres ry]
          simp only [Bool.not_eq_true] at hc1 hc2
          simp [hc1, hc2]
        by_cases hzx : z = rx
        · rw [hzx, rset_rank_same]
          rw [if_pos ⟨hb, rfl⟩, hrankpres rx]
        · rw [rset_rank_other _ _ _ z hzx, pset_rank, hrankpres z]
          rw [if_neg (fun q => hzx q.2)]
      · obtain ⟨ks0, hks0⟩ := hkeyspres
        rw [rset_keys]
        rcases pset_keys_cases s2 ry rx with hk | hk
        · exact ⟨ks0, by rw [hk, hks0]⟩
        · exact ⟨ks0 ++ [ry], by rw [hk, hks0, List.append_assoc]⟩

/-! ### Spec-level connectivity -/

/-- `a` and `b` are joined by some edge of `E` (in either orientation). -/
def Adj (E : List Edge) (a b : String) : Prop :=
  ∃ e ∈ E, (e.u = a ∧ e.v = b) ∨ (e.u = b ∧ e.v = a)

/-- Connectivity: the reflexive-transitive closure of adjacency. -/
def Conn (E : List Edge) : String → String → Prop :=
  Relation.ReflTransGen (Adj E)

theorem adj_symm (E : List Edge) (a b : String) (h : Adj E a b) : Adj E b a := by
  obtain ⟨e, he, h1 | h2⟩ := h
  · exact ⟨e, he, Or.inr h1⟩
  · exact ⟨e, he, Or.inl h2⟩

theorem conn_refl (E : List Edge) (a : String) : Conn E a a :=
  Relation.ReflTransGen.refl

theorem conn_symm (E : List Edge) (a b : String) (h : Conn E a b) : Conn E b a :=
  Relation.ReflTransGen.symmetric (fun _ _ hxy => adj_symm E _ _ hxy) h

theorem conn_trans (E : List Edge) (a b c : String) (h1 : Conn E a b)
    (h2 : Conn E b c) : Conn E a c :=
  Relation.ReflTransGen.trans h1 h2

theorem adj_single (E : List Edge) (e : Edge) (he : e ∈ E) :
    Adj E e.u e.v := ⟨e, he, Or.inl ⟨rfl, rfl⟩⟩

theorem conn_mono (E E' : List Edge) (hsub : ∀ e ∈ E, e ∈ E') (a b : String)
    (h : Conn E a b) : Conn E' a b := by
  refine Relation.ReflTransGen.mono ?_ h
  intro x y ⟨e, he, hor⟩
  exact ⟨e, hsub e he, hor⟩

theorem conn_nil (a b : String) : Conn [] a b ↔ a = b := by
  constructor
  · intro h
    induction h with
    | refl => rfl
    | tail _ hadj ih =>
      obtain ⟨e, he, _⟩ := hadj
      exact absurd he (List.not_mem_nil e)
  · rintro rfl
    exact conn_refl [] a

theorem adj_append_single (P : List Edge) (e : Edge) (a b : String) :
    Adj (P ++ [e]) a b ↔ Adj P a b ∨ ((e.u = a ∧ e.v = b) ∨ (e.u = b ∧ e.v = a)) := by
  constructor
  · intro ⟨f, hf, hor⟩
    rcases List.mem_append.1 hf with hP | hsing
    · exact Or.inl ⟨f, hP, hor⟩
    · rw [List.mem_singleton] at hsing
      subst hsing
      exact Or.inr hor
  · intro h
    rcases h with ⟨f, hf, hor⟩ | hor
    · exact ⟨f, List.mem_append.2 (Or.inl hf), hor⟩
    · exact ⟨e, List.mem_append.2 (Or.inr (List.mem_singleton.2 rfl)), hor⟩

theorem conn_append_single (P : List Edge) (e : Edge) (a b : String) :
    Conn (P ++ [e]) a b ↔
      Conn P a b ∨ (Conn P a e.u ∧ Conn P e.v b) ∨ (Conn P a e.v ∧ Conn P e.u b) := by
  constructor
  · intro h
    induction h with
    | refl => exact Or.inl (conn_refl P a)
    | tail hac hadj ih =>
      rename_i c d
      rcases (adj_append_single P e c d).1 hadj with hP | huv | hvu
      · rcases ih with h1 | ⟨h1, h2⟩ | ⟨h1, h2⟩
        · exact Or.inl (Relation.ReflTransGen.tail h1 hP)
        · exact Or.inr (Or.inl ⟨h1, Relation.ReflTransGen.tail h2 hP⟩)
        · exact Or.inr (Or.inr ⟨h1, Relation.ReflTransGen.tail h2 hP⟩)
      · obtain ⟨hu, hv⟩ := huv
        subst hu
        subst hv
        rcases ih with h1 | ⟨h1, h2⟩ | ⟨h1, h2⟩
        · exact Or.inr (Or.inl ⟨h1, conn_refl P _⟩)
        · exact Or.inr (Or.inl ⟨h1, conn_refl P _⟩)
        · exact Or.inl h1
      · obtain ⟨hu, hv⟩ := hvu
        subst hu
        subst hv
        rcases ih with h1 | ⟨h1, h2⟩ | ⟨h1, h2⟩
        · exact Or.inr (Or.inr ⟨h1, conn_refl P _⟩)
        · exact Or.inl h1
        · exact Or.inr (Or.inr ⟨h1, conn_refl P _⟩)
  · intro h
    have hmono : ∀ x y, Conn P x y → Conn (P ++ [e]) x y :=
      fun x y hxy => conn_mono P (P ++ [e])
        (fun f hf => List.mem_append.2 (Or.inl hf)) x y hxy
    have hstep : Conn (P ++ [e]) e.u e.v :=
      Relation.ReflTransGen.single
        (adj_single (P ++ [e]) e (List.mem_append.2 (Or.inr (List.mem_singleton.2 rfl))))
    rcases h with h1 | ⟨h1, h2⟩ | ⟨h1, h2⟩
    · exact hmono a b h1
    · exact conn_trans _ a e.v b (conn_trans _ a e.u e.v (hmono _ _ h1) hstep)
        (hmono _ _ h2)
    · exact conn_trans _ a e.u b
        (conn_trans _ a e.v e.u (hmono _ _ h1) (conn_symm _ _ _ hstep))
        (hmono _ _ h2)

/-! ### Properties of the initial state -/

/-- Invariant of the constructor fold: `S` is the set of strings seen so far. -/
def InitP (s : DisjointSet) (S : String → Prop) : Prop :=
  (∀ x, x ∈ s.keys ↔ ∃ a, S a ∧ x = some a) ∧
  (∀ x, x ∈ s.keys → s.parent x = x) ∧
  (∀ x, x ∉ s.keys → s.parent x = none) ∧
  (∀ a, S a → s.rank (some a) = some 0) ∧
  (∀ x, (∀ a, S a → x ≠ some a) → s.rank x = none)

theorem initP_step (s : DisjointSet) (S : String → Prop) (hp : InitP s S)
    (e : String) :
    InitP (rset (pset s (some e) (some e)) (some e) (some 0))
      (fun a => S a ∨ a = e) := by
  obtain ⟨hk, hpf, hpo, hr1, hr2⟩ := hp
  refine ⟨?_, ?_, ?_, ?_, ?_⟩
  · intro x
    rw [rset_keys]
    constructor
    · intro hx
      by_cases hxe : x = some e
      · exact ⟨e, Or.inr rfl, hxe⟩
      · have : x ∈ s.keys := by
          rcases pset_keys_cases s (some e) (some e) with hc | hc
          · rwa [hc] at hx
          · rw [hc] at hx
            rcases List.mem_append.1 hx with h1 | h2
            · exact h1
            · exact absurd (List.mem_singleton.1 h2) hxe
        obtain ⟨a, ha, hxa⟩ := (hk x).1 this
        exact ⟨a, Or.inl ha, hxa⟩
    · rintro ⟨a, ha | rfl, rfl⟩
      · exact pset_keys_mem s _ _ _ ((hk (some a)).2 ⟨a, ha, rfl⟩)
      · exact pset_keys_self s _ _
  · intro x hx
    rw [rset_keys] at hx
    rw [rset_parent]
    by_cases hxe : x = some e
    · rw [hxe, pset_parent_same]
    · rw [pset_parent_other s _ _ x hxe]
      refine hpf x ?_
      rcases pset_keys_cases s (some e) (some e) with hc | hc
      · rwa [hc] at hx
      · rw [hc] at hx
        rcases List.mem_append.1 hx with h1 | h2
        · exact h1
        · exact absurd (List.mem_singleton.1 h2) hxe
  · intro x hx
    rw [rset_keys] at hx
    rw [rset_parent]
    have hxe : x ≠ some e := by
      intro heq
      exact hx (by rw [heq]; exact pset_keys_self s _ _)
    rw [pset_parent_other s _ _ x hxe]
    exact hpo x (fun hmem => hx (pset_keys_mem s _ _ x hmem))
  · intro a ha
    rcases ha with ha | rfl
    · by_cases hae : a = e
      · rw [hae, rset_rank_same]
      · rw [rset_rank_other _ _ _ _ (by simpa using hae), pset_rank]
        exact hr1 a ha
    · rw [rset_rank_same]
  · intro x hx
    have hxe : x ≠ some e := hx e (Or.inr rfl)
    rw [rset_rank_other _ _ _ _ hxe, pset_rank]
    exact hr2 x (fun a ha => hx a (Or.inl ha))

theorem initP_fold : ∀ (l : List String) (s : DisjointSet) (S : String → Prop),
    InitP s S →
    InitP (l.foldl (fun s e => rset (pset s (some e) (some e)) (some e) (some 0)) s)
      (fun a => S a ∨ a ∈ l) := by
  intro l
  induction l with
  | nil =>
    intro s S hp
    simpa using hp
  | cons e l ih =>
    intro s S hp
    have h1 := ih (rset (pset s (some e) (some e)) (some e) (some 0))
      (fun a => S a ∨ a = e) (initP_step s S hp e)
    rw [List.foldl_cons]
    have hiff : ∀ a, ((S a ∨ a = e) ∨ a ∈ l) ↔ (S a ∨ a ∈ e :: l) := by
      intro a
      simp [List.mem_cons]
      tauto
    obtain ⟨hk, hpf, hpo, hr1, hr2⟩ := h1
    refine ⟨?_, hpf, hpo, ?_, ?_⟩
    · intro x
      rw [hk x]
      constructor
      · rintro ⟨a, ha, rfl⟩
        exact ⟨a, (hiff a).1 ha, rfl⟩
      · rintro ⟨a, ha, rfl⟩
        exact ⟨a, (hiff a).2 ha, rfl⟩
    · intro a ha
      exact hr1 a ((hiff a).2 ha)
    · intro x hx
      exact hr2 x (fun a ha => hx a ((hiff a).1 ha))

theorem init_props (V : List String) :
    InitP (DisjointSet.init V) (fun a => a ∈ V) := by
  have hbase : InitP ⟨fun _ => none, fun _ => none, []⟩ (fun _ => False) := by
    refine ⟨by simp, by simp, fun x _ => rfl, by simp, fun x _ => rfl⟩
  have := initP_fold V ⟨fun _ => none, fun _ => none, []⟩ (fun _ => False) hbase
  unfold DisjointSet.init
  simpa using this

theorem init_wfs (V : List String) : WFS (DisjointSet.init V) := by
  obtain ⟨hk, hpf, hpo, _, _⟩ := init_props V
  constructor
  · intro x hx
    refine hpo x ?_
    intro hmem
    exact hx (List.mem_cons.2 (Or.inr hmem))
  · refine ⟨fun x => match x with | none => 0 | some _ => 1, ?_⟩
    intro x hx
    by_cases hmem : x ∈ (DisjointSet.init V).keys
    · exact absurd (hpf x hmem) hx
    · have hpn := hpo x hmem
      rw [hpn] at hx ⊢
      match x with
      | none => exact absurd rfl hx
      | some a => exact ⟨Nat.zero_lt_one, List.mem_cons.2 (Or.inl rfl)⟩

theorem init_root_reg (V : List String) (a : String) (ha : a ∈ V) :
    rootOf (DisjointSet.init V) (some a) = some a := by
  obtain ⟨hk, hpf, _, _, _⟩ := init_props V
  exact root_of_fix _ _ (hpf (some a) ((hk (some a)).2 ⟨a, ha, rfl⟩))

theorem init_root_unreg (V : List String) (x : JV)
    (hx : ∀ a ∈ V, x ≠ some a) : rootOf (DisjointSet.init V) x = none := by
  obtain ⟨hk, hpf, hpo, _, _⟩ := init_props V
  obtain ⟨hout, h, hd⟩ := init_wfs V
  have hxmem : x ∉ (DisjointSet.init V).keys := by
    intro hmem
    obtain ⟨a, ha, rfl⟩ := (hk x).1 hmem
    exact hx a ha rfl
  have hnone : (DisjointSet.init V).parent none = none := by
    refine hpo none ?_
    intro hmem
    obtain ⟨a, _, hcontra⟩ := (hk none).1 hmem
    exact Option.noConfusion hcontra
  by_cases hxn : x = none
  · rw [hxn]
    exact root_of_fix _ none hnone
  · have hpx := hpo x hxmem
    have hnf : (DisjointSet.init V).parent x ≠ x := by rw [hpx]; exact fun q => hxn q.symm
    rw [root_step _ h hd x hnf, hpx]
    exact root_of_fix _ none hnone

/-! ### The class-merge remap -/

theorem remap_eq_iff (wn l a b : JV) (hwl : wn ≠ l) :
    (if a = l then wn else a) = (if b = l then wn else b) ↔
      a = b ∨ (a = l ∧ b = wn) ∨ (a = wn ∧ b = l) := by
  by_cases ha : a = l
  · by_cases hb : b = l
    · rw [if_pos ha, if_pos hb]
      exact ⟨fun _ => Or.inl (ha.trans hb.symm), fun _ => rfl⟩
    · rw [if_pos ha, if_neg hb]
      constructor
      · intro h
        exact Or.inr (Or.inl ⟨ha, h.symm⟩)
      · rintro (h | ⟨h1, h2⟩ | ⟨h1, h2⟩)
        · exact absurd (h ▸ ha) hb
        · exact h2.symm
        · exact absurd (h1.symm.trans ha) hwl
  · by_cases hb : b = l
    · rw [if_neg ha, if_pos hb]
      constructor
      · intro h
        exact Or.inr (Or.inr ⟨h, hb⟩)
      · rintro (h | ⟨h1, h2⟩ | ⟨h1, h2⟩)
        · exact absurd (h.trans hb) ha
        · exact absurd h1 ha
        · exact h1
    · rw [if_neg ha, if_neg hb]
      constructor
      · intro h
        exact Or.inl h
      · rintro (h | ⟨h1, h2⟩ | ⟨h1, h2⟩)
        · exact h
        · exact absurd h1 ha
        · exact absurd h2 hb

theorem uwl_cases (s : DisjointSet) (rx ry : JV) :
    (uWinner s rx ry = rx ∧ uLoser s rx ry = ry) ∨
    (uWinner s rx ry = ry ∧ uLoser s rx ry = rx) := by
  unfold uWinner uLoser
  by_cases hc : rlt (s.rank rx) (s.rank ry) = true
  · rw [if_pos hc, if_pos hc]
    exact Or.inr ⟨rfl, rfl⟩
  · rw [if_neg hc, if_neg hc]
    exact Or.inl ⟨rfl, rfl⟩

/-! ### The general scan lemma

Over arbitrary inputs the scan always succeeds, keeps the state
well-formed, keeps every vertex absent from the registration predicate `R`
in the class of the `undefined` phantom node, and selects only edges that
are not self-loops and have at least one `R`-endpoint. -/

theorem kruskalFold_gen (R : String → Prop) :
    ∀ (L : List Edge) (s : DisjointSet) (sel : List Edge) (tc : JNum),
    WFS s →
    (∀ b, ¬ R b → rootOf s (some b) = rootOf s none) →
    ∃ s2 sel2 tc2, kruskalFold s sel tc L = some (s2, sel2, tc2) ∧ WFS s2 ∧
      (∀ b, ¬ R b → rootOf s2 (some b) = rootOf s2 none) ∧
      (∃ selN, sel2 = sel ++ selN ∧ selN.Sublist L ∧
        tc2 = selN.foldl (fun a e => jadd a e.weight) tc ∧
        (∀ e ∈ selN, e.u ≠ e.v ∧ (R e.u ∨ R e.v))) := by
  intro L
  induction L with
  | nil =>
    intro s sel tc hwf hph
    exact ⟨s, sel, tc, rfl, hwf, hph,
      ⟨[], by simp, List.nil_sublist [], rfl, by simp⟩⟩
  | cons e rest ih =>
    intro s sel tc hwf hph
    obtain ⟨hs, h, hd⟩ := hwf
    by_cases heq : rootOf s (some e.u) = rootOf s (some e.v)
    · obtain ⟨s', huni, hs', ⟨h2, hd2⟩, hroots, hranks, _⟩ :=
        union_spec_same s h hs hd (some e.u) (some e.v) heq
      have hph' : ∀ b, ¬ R b → rootOf s' (some b) = rootOf s' none := by
        intro b hb
        rw [hroots (some b), hroots none]
        exact hph b hb
      obtain ⟨s2, sel2, tc2, hfold, hwf2, hph2, selN, hsel2, hsub, htc, hprops⟩ :=
        ih s' sel tc ⟨hs', h2, hd2⟩ hph'
      refine ⟨s2, sel2, tc2, ?_, hwf2, hph2, selN, hsel2, hsub.cons e, htc, hprops⟩
      rw [show kruskalFold s sel tc (e :: rest) =
        (match s.union (some e.u) (some e.v) with
          | none => none
          | some (true, s1) => kruskalFold s1 (sel ++ [e]) (jadd tc e.weight) rest
          | some (false, s1) => kruskalFold s1 sel tc rest) from rfl, huni]
      exact hfold
    · obtain ⟨s', huni, hs', ⟨h2, hd2⟩, hroots, hranks, _⟩ :=
        union_spec_diff s h hs hd (some e.u) (some e.v) heq
      have hph' : ∀ b, ¬ R b → rootOf s' (some b) = rootOf s' none := by
        intro b hb
        rw [hroots (some b), hroots none, hph b hb]
      have heuv : e.u ≠ e.v := by
        intro hc
        rw [hc] at heq
        exact heq rfl
      have hRor : R e.u ∨ R e.v := by
        by_contra hc
        push_neg at hc
        rw [hph e.u hc.1, hph e.v hc.2] at heq
        exact heq rfl
      obtain ⟨s2, sel2, tc2, hfold, hwf2, hph2, selN, hsel2, hsub, htc, hprops⟩ :=
        ih s' (sel ++ [e]) (jadd tc e.weight) ⟨hs', h2, hd2⟩ hph'
      refine ⟨s2, sel2, tc2, ?_, hwf2, hph2, e :: selN, ?_, hsub.cons₂ e, htc, ?_⟩
      · rw [show kruskalFold s sel tc (e :: rest) =
          (match s.union (some e.u) (some e.v) with
            | none => none
            | some (true, s1) => kruskalFold s1 (sel ++ [e]) (jadd tc e.weight) rest
            | some (false, s1) => kruskalFold s1 sel tc rest) from rfl, huni]
        exact hfold
      · rw [hsel2, List.append_assoc]
        rfl
      · intro f hf
        rcases List.mem_cons.1 hf with rfl | hfN
        · exact ⟨heuv, hRor⟩
        · exact hprops f hfN

/-! ### Properties of the edge sort -/

/-- The numeric value of a weight (meaningful when the weight is a number). -/
def wq (e : Edge) : ℚ := e.weight.getD 0

/-- Ascending-weight order on edges. -/
def wle (a b : Edge) : Prop := wq a ≤ wq b

theorem insertE_perm (a : Edge) (l : List Edge) :
    List.Perm (insertE a l) (a :: l) := by
  induction l with
  | nil => exact List.Perm.refl _
  | cons b t ih =>
    unfold insertE
    by_cases hc : eleB a b = true
    · rw [if_pos hc]
    · rw [if_neg hc]
      exact (List.Perm.cons b ih).trans (List.Perm.swap a b t)

theorem sortEdges_perm (l : List Edge) : List.Perm (sortEdges l) l := by
  induction l with
  | nil => exact List.Perm.refl _
  | cons a t ih =>
    show List.Perm (insertE a (sortEdges t)) (a :: t)
    exact (insertE_perm a (sortEdges t)).trans (List.Perm.cons a ih)

theorem sortEdges_mem (l : List Edge) (e : Edge) : e ∈ sortEdges l ↔ e ∈ l :=
  (sortEdges_perm l).mem_iff

theorem eleB_of_num (a b : Edge) (ha : a.weight ≠ none) (hb : b.weight ≠ none) :
    eleB a b = true ↔ wq a ≤ wq b := by
  obtain ⟨qa, hqa⟩ := Option.ne_none_iff_exists'.1 ha
  obtain ⟨qb, hqb⟩ := Option.ne_none_iff_exists'.1 hb
  unfold eleB cmpVal wq
  rw [hqa, hqb]
  show decide ((jsub (some qa) (some qb)).getD 0 ≤ 0) = true ↔ qa ≤ qb
  unfold jsub
  simp only [Option.getD_some, decide_eq_true_eq]
  constructor
  · intro h
    linarith
  · intro h
    linarith

theorem eleB_of_same (a b : Edge) (h : a.weight = b.weight) : eleB a b = true := by
  unfold eleB cmpVal
  rw [h]
  cases hb : b.weight with
  | none => simp [jsub]
  | some q => simp [jsub]

theorem insertE_pairwise (a : Edge) (l : List Edge) (ha : a.weight ≠ none)
    (hl : ∀ e ∈ l, e.weight ≠ none) (hp : l.Pairwise wle) :
    (insertE a l).Pairwise wle := by
  induction l with
  | nil => simp [insertE, List.pairwise_singleton]
  | cons b t ih =>
    unfold insertE
    by_cases hc : eleB a b = true
    · rw [if_pos hc]
      have hab : wq a ≤ wq b :=
        (eleB_of_num a b ha (hl b (List.mem_cons_self b t))).1 hc
      refine List.Pairwise.cons ?_ hp
      intro x hx
      rcases List.mem_cons.1 hx with rfl | hxt
      · exact hab
      · exact le_trans hab (List.rel_of_pairwise_cons hp hxt)
    · rw [if_neg hc]
      have hba : wq b ≤ wq a := by
        have hnum := eleB_of_num a b ha (hl b (List.mem_cons_self b t))
        have : ¬ wq a ≤ wq b := fun hq => hc (hnum.2 hq)
        linarith [lt_of_not_ge this]
      refine List.Pairwise.cons ?_ (ih (fun e he => hl e (List.mem_cons_of_mem b he))
        (List.Pairwise.of_cons hp))
      intro x hx
      rcases List.mem_cons.1 ((insertE_perm a t).mem_iff.1 hx) with rfl | hxt
      · exact hba
      · exact List.rel_of_pairwise_cons hp hxt

theorem sortEdges_pairwise (l : List Edge) (hl : ∀ e ∈ l, e.weight ≠ none) :
    (sortEdges l).Pairwise wle := by
  induction l with
  | nil => exact List.Pairwise.nil
  | cons a t ih =>
    show (insertE a (sortEdges t)).Pairwise wle
    exact insertE_pairwise a (sortEdges t) (hl a (List.mem_cons_self a t))
      (fun e he => hl e (List.mem_cons_of_mem a ((sortEdges_mem t e).1 he)))
      (ih (fun e he => hl e (List.mem_cons_of_mem a he)))

theorem insertE_filter (a : Edge) (l : List Edge) (W : JNum) :
    (insertE a l).filter (fun e => decide (e.weight = W)) =
      if a.weight = W then a :: l.filter (fun e => decide (e.weight = W))
      else l.filter (fun e => decide (e.weight = W)) := by
  induction l with
  | nil =>
    by_cases hw : a.weight = W
    · simp [insertE, hw]
    · simp [insertE, hw]
  | cons b t ih =>
    unfold insertE
    by_cases hc : eleB a b = true
    · rw [if_pos hc, List.filter_cons]
      by_cases hw : a.weight = W
      · rw [if_pos (by simpa using hw), if_pos hw]
      · rw [if_neg (by simpa using hw), if_neg hw]
    · rw [if_neg hc]
      have hnotboth : ¬ (a.weight = W ∧ b.weight = W) := by
        rintro ⟨h1, h2⟩
        exact hc (eleB_of_same a b (h1.trans h2.symm))
      rw [List.filter_cons, ih]
      by_cases hbw : b.weight = W
      · have haw : ¬ a.weight = W := fun q => hnotboth ⟨q, hbw⟩
        rw [if_pos (by simpa using hbw), if_neg haw, if_neg haw,
          List.filter_cons, if_pos (by simpa using hbw)]
      · by_cases haw : a.weight = W
        · rw [if_neg (by simpa using hbw), if_pos haw, if_pos haw,
            List.filter_cons, if_neg (by simpa using hbw)]
        · rw [if_neg (by simpa using hbw), if_neg haw, if_neg haw,
            List.filter_cons, if_neg (by simpa using hbw)]

theorem sortEdges_filter (l : List Edge) (W : JNum) :
    (sortEdges l).filter (fun e => decide (e.weight = W)) =
      l.filter (fun e => decide (e.weight = W)) := by
  induction l with
  | nil => rfl
  | cons a t ih =>
    show (insertE a (sortEdges t)).filter _ = _
    rw [insertE_filter, ih, List.filter_cons]
    by_cases hw : a.weight = W
    · rw [if_pos hw, if_pos (by simpa using hw)]
    · rw [if_neg hw, if_neg (by simpa using hw)]

/-! ### Reachable example states and the recursion-depth mirror -/

/-- Advance a state by one `union` call (used to build concrete reachable
states; on the states we build, `union` always succeeds). -/
def stepU (s : DisjointSet) (x y : JV) : DisjointSet :=
  match s.union x y with
  | some (_, s1) => s1
  | none => s

/-- A concrete reachable forest state on vertices `A B C D`:
after `union(A,B)`, `union(C,D)`, `union(A,C)` the parent chain of `D` is
`D → C → A` (length 2, uncompressed). -/
def sC7 : DisjointSet :=
  stepU (stepU (stepU (DisjointSet.init ["A", "B", "C", "D"])
    (some "A") (some "B")) (some "C") (some "D")) (some "A") (some "C")

/-- The nesting depth of recursive `find` calls: `find(x)` invokes
`find(parent.get(x))` on the same (pre-mutation) state whenever `x` is not
a root, so each parent link adds one stack frame. -/
def findDepth : Nat → DisjointSet → JV → Nat
  | 0, _, _ => 0
  | n + 1, s, x =>
    if s.parent x = x then 1 else 1 + findDepth n s (s.parent x)

/-! ### Reachable states of the disjoint-set forest -/

/-- States reachable under the class contract: construct from a vertex
list, then any sequence of `find`/`union` calls on registered vertices. -/
inductive Reached (V : List String) : DisjointSet → Prop
  | init : Reached V (DisjointSet.init V)
  | find (s s' : DisjointSet) (a : String) (r : JV) (ha : a ∈ V)
      (hs : Reached V s) (h : s.find (some a) = some (r, s')) : Reached V s'
  | union (s s' : DisjointSet) (a b : String) (fl : Bool) (ha : a ∈ V)
      (hb : b ∈ V) (hs : Reached V s)
      (h : s.union (some a) (some b) = some (fl, s')) : Reached V s'

/-- Ranks of registered vertices are non-negative integers; everything
else reads `undefined`. -/
def RankInt (V : List String) (s : DisjointSet) : Prop :=
  (∀ a ∈ V, ∃ k : ℤ, 0 ≤ k ∧ s.rank (some a) = some k) ∧
  (∀ x : JV, (∀ a ∈ V, x ≠ some a) → s.rank x = none)

/-- Roots of registered vertices are registered. -/
def RootsReg (V : List String) (s : DisjointSet) : Prop :=
  ∀ a ∈ V, ∃ b ∈ V, rootOf s (some a) = some b

theorem reached_inv (V : List String) (s : DisjointSet) (hs : Reached V s) :
    WFS s ∧ RankInt V s ∧ RootsReg V s := by
  induction hs with
  | init =>
    obtain ⟨hk, hpf, hpo, hr1, hr2⟩ := init_props V
    refine ⟨init_wfs V, ⟨?_, ?_⟩, ?_⟩
    · intro a ha
      exact ⟨0, le_rfl, hr1 a ha⟩
    · intro x hx
      refine hr2 x ?_
      intro a ha heq
      exact hx a ha heq
    · intro a ha
      exact ⟨a, ha, init_root_reg V a ha⟩
  | find s s' a r ha hsr h ih =>
    obtain ⟨⟨hso, hh, hdd⟩, ⟨hri1, hri2⟩, hrr⟩ := ih
    obtain ⟨s'', heq, hs'', hd'', hroot'', hrank'', _, _⟩ :=
      find_spec s hh hso hdd (some a)
    rw [heq] at h
    cases h
    refine ⟨⟨hs'', hh, hd''⟩, ⟨?_, ?_⟩, ?_⟩
    · intro b hb
      obtain ⟨k, hk0, hk⟩ := hri1 b hb
      exact ⟨k, hk0, by rw [hrank'']; exact hk⟩
    · intro x hx
      rw [hrank'']
      exact hri2 x hx
    · intro b hb
      obtain ⟨c, hc, hcr⟩ := hrr b hb
      exact ⟨c, hc, by rw [hroot'']; exact hcr⟩
  | union s s' a b fl ha hb hsr h ih =>
    obtain ⟨⟨hso, hh, hdd⟩, ⟨hri1, hri2⟩, hrr⟩ := ih
    by_cases hroots : rootOf s (some a) = rootOf s (some b)
    · obtain ⟨s'', heq, hs'', hwf'', hroot'', hrank'', _⟩ :=
        union_spec_same s hh hso hdd (some a) (some b) hroots
      rw [heq] at h
      cases h
      refine ⟨⟨hs'', hwf''⟩, ⟨?_, ?_⟩, ?_⟩
      · intro c hc
        obtain ⟨k, hk0, hk⟩ := hri1 c hc
        exact ⟨k, hk0, by rw [hrank'']; exact hk⟩
      · intro x hx
        rw [hrank'']
        exact hri2 x hx
      · intro c hc
        obtain ⟨d, hd, hdr⟩ := hrr c hc
        exact ⟨d, hd, by rw [hroot'']; exact hdr⟩
    · obtain ⟨s'', heq, hs'', hwf'', hroot'', hrank'', _⟩ :=
        union_spec_diff s hh hso hdd (some a) (some b) hroots
      rw [heq] at h
      cases h
      obtain ⟨a0, ha0, hra0⟩ := hrr a ha
      refine ⟨⟨hs'', hwf''⟩, ⟨?_, ?_⟩, ?_⟩
      · intro c hc
        obtain ⟨k, hk0, hk⟩ := hri1 c hc
        rw [hrank'' (some c)]
        by_cases hcase : uBump s (rootOf s (some a)) (rootOf s (some b)) = true ∧
            (some c : JV) = rootOf s (some a)
        · rw [if_pos hcase]
          have : s.rank (rootOf s (some a)) = some k := by
            rw [← hcase.2]
            exact hk
          rw [this]
          exact ⟨k + 1, by omega, rfl⟩
        · rw [if_neg hcase]
          exact ⟨k, hk0, hk⟩
      · intro x hx
        rw [hrank'' x]
        have hxa : x ≠ rootOf s (some a) := by
          intro heq2
          rw [hra0] at heq2
          exact hx a0 ha0 heq2
        rw [if_neg (fun q => hxa q.2)]
        exact hri2 x hx
      · intro c hc
        obtain ⟨d, hd, hdr⟩ := hrr c hc
        rw [hroot'' (some c)]
        by_cases hcase : rootOf s (some c) =
            uLoser s (rootOf s (some a)) (rootOf s (some b))
        · rw [if_pos hcase]
          rcases uwl_cases s (rootOf s (some a)) (rootOf s (some b)) with
            ⟨h1, _⟩ | ⟨h1, _⟩
          · rw [h1]
            exact ⟨a0, ha0, hra0⟩
          · rw [h1]
            obtain ⟨b0, hb0, hrb0⟩ := hrr b hb
            exact ⟨b0, hb0, hrb0⟩
        · rw [if_neg hcase]
          exact ⟨d, hd, hdr⟩

theorem ubump_iff_int (s : DisjointSet) (rx ry : JV) (i j : ℤ)
    (hi : s.rank rx = some i) (hj : s.rank ry = some j) :
    uBump s rx ry = true ↔ i = j := by
  unfold uBump
  rw [hi, hj]
  show (!(rlt (some i) (some j)) && !(rlt (some j) (some i))) = true ↔ i = j
  unfold rlt
  simp only [Bool.and_eq_true, Bool.not_eq_true']
  constructor
  · rintro ⟨h1, h2⟩
    simp only [decide_eq_false_iff_not, not_lt] at h1 h2
    omega
  · rintro rfl
    simp

/-! ### Claim theorems -/

/-- C10: `kruskalMST` is total at its public interface: for every vertex
array and edge array — including empty inputs, self-loops, duplicate
vertices, and edges with unregistered endpoints — the scan terminates
(the recursion fuel proved sufficient) and a result object is returned. -/
theorem c10_kruskalMST_total (V : List String) (E : List Edge) :
    (kruskalMST V E).isSome = true := by
  obtain ⟨s2, sel2, tc2, hfold, _⟩ :=
    kruskalFold_gen (fun _ => True) (sortEdges E) (DisjointSet.init V) []
      (some 0) (init_wfs V) (fun b hb => absurd trivial hb)
  unfold kruskalMST
  rw [hfold]
  rfl

/-- C7 counterexample: in the reachable forest state `sC7` (built by
`union(A,B)`, `union(C,D)`, `union(A,C)` on registered vertices), calling
`union(D, D)` on the registered vertex `D` returns `false` but rewrites
`parent[D]` from `C` to `A` (path compression), so `union(x, x)` does not
leave the parent structure unchanged. -/
theorem c7_counterexample :
    sC7.parent (some "D") = some "C" ∧
    (sC7.union (some "D") (some "D")).map (fun r => r.1) = some false ∧
    (sC7.union (some "D") (some "D")).map (fun r => r.2.parent (some "D")) =
      some (some "A") := by
  refine ⟨by decide, by decide, by decide⟩

/-- C7 amended: on every well-formed state, `union(x, x)` returns `false`
and changes neither the rank table nor the logical partition (it may only
compress parent paths); consequently `kruskalMST` never selects a
self-loop edge, regardless of its weight. -/
theorem c7_amended (s : DisjointSet) (hwf : WFS s) (x : JV) :
    (∃ s', s.union x x = some (false, s') ∧
      (∀ z, s'.rank z = s.rank z) ∧ (∀ z, rootOf s' z = rootOf s z)) ∧
    (∀ V E r, kruskalMST V E = some r → ∀ e ∈ r.1, e.u ≠ e.v) := by
  constructor
  · obtain ⟨hs, h, hd⟩ := hwf
    obtain ⟨s', huni, hs', _, hroots, hranks, _⟩ :=
      union_spec_same s h hs hd x x rfl
    exact ⟨s', huni, hranks, hroots⟩
  · intro V E r hr e he
    obtain ⟨s2, sel2, tc2, hfold, _, _, selN, hsel2, _, _, hprops⟩ :=
      kruskalFold_gen (fun _ => True) (sortEdges E) (DisjointSet.init V) []
        (some 0) (init_wfs V) (fun b hb => absurd trivial hb)
    unfold kruskalMST at hr
    rw [hfold] at hr
    have hre : r = (sel2, tc2) := by
      cases hr
      rfl
    rw [hre] at he
    rw [hsel2] at he
    simp only [List.nil_append] at he
    exact (hprops e he).1

/-- C7 witness: the amended theorem applied to the initial state on
`["A"]` and the self-loop input `A-A:1`. -/
theorem c7_witness :
    (∃ s', (DisjointSet.init ["A"]).union (some "A") (some "A") =
        some (false, s') ∧
      (∀ z, s'.rank z = (DisjointSet.init ["A"]).rank z) ∧
      (∀ z, rootOf s' z = rootOf (DisjointSet.init ["A"]) z)) ∧
    (∀ V E r, kruskalMST V E = some r → ∀ e ∈ r.1, e.u ≠ e.v) :=
  c7_amended (DisjointSet.init ["A"]) (init_wfs ["A"]) (some "A")

unseal Rat.add Rat.sub in
/-- C3 counterexample: with vertex set `["A"]`, the edge `X-Y:1` whose
endpoints are both unregistered is never selected (both ends resolve to
the `undefined` phantom root, so `union` reports a cycle), whereas
declaring `X` and `Y` makes the same edge selected: an edge mentioning
unregistered vertices is NOT processed as if the vertices had been
declared as fresh singleton components. -/
theorem c3_counterexample :
    kruskalMST ["A"] [⟨"X", "Y", some 1⟩] = some ([], some 0) ∧
    kruskalMST ["A", "X", "Y"] [⟨"X", "Y", some 1⟩] =
      some ([⟨"X", "Y", some 1⟩], some 1) := by
  refine ⟨by decide, by decide⟩

/-- C3 amended: vertices absent from the supplied vertex set are not
registered as fresh singletons; through the `Map.get` default they all
collapse into the single class of the `undefined` phantom node, so an
edge both of whose endpoints are unregistered is never selected: every
selected edge has at least one registered endpoint. -/
theorem c3_amended (V : List String) (E : List Edge) (r : List Edge × JNum)
    (hr : kruskalMST V E = some r) :
    ∀ e ∈ r.1, e.u ∈ V ∨ e.v ∈ V := by
  intro e he
  have hph : ∀ b, ¬ b ∈ V →
      rootOf (DisjointSet.init V) (some b) = rootOf (DisjointSet.init V) none := by
    intro b hb
    rw [init_root_unreg V (some b) (fun a ha => by
      intro heq
      cases heq
      exact hb ha)]
    rw [init_root_unreg V none (fun a _ => Option.noConfusion)]
  obtain ⟨s2, sel2, tc2, hfold, _, _, selN, hsel2, _, _, hprops⟩ :=
    kruskalFold_gen (fun b => b ∈ V) (sortEdges E) (DisjointSet.init V) []
      (some 0) (init_wfs V) hph
  unfold kruskalMST at hr
  rw [hfold] at hr
  have hre : r = (sel2, tc2) := by
    cases hr
    rfl
  rw [hre] at he
  rw [hsel2] at he
  simp only [List.nil_append] at he
  exact (hprops e he).2

unseal Rat.add Rat.sub in
/-- C3 witness: the amended theorem applied to a concrete run that
selects an edge. -/
theorem c3_witness :
    (⟨"A", "B", some 1⟩ : Edge).u ∈ ["A", "B"] ∨
      (⟨"A", "B", some 1⟩ : Edge).v ∈ ["A", "B"] :=
  c3_amended ["A", "B"] [⟨"A", "B", some 1⟩] ([⟨"A", "B", some 1⟩], some 1)
    (by decide) ⟨"A", "B", some 1⟩ (by decide)

/-- C4: the code performs no weight validation and raises no
`InvalidWeight` error: on an edge whose weight is `NaN`/`undefined` the
computation still returns a result object — the edge is selected and the
total cost is `NaN` (`none`). -/
theorem c4_no_invalidweight_failure :
    kruskalMST ["A", "B"] [⟨"A", "B", none⟩] =
      some ([⟨"A", "B", none⟩], none) := by
  decide

/-- C5: `find` is implemented by self-recursion, not an iterative loop:
in the reachable state `sC7` the parent chain of `D` is `D → C → A`, and
`find(D)` nests three stack frames (one per chain node), while `find(A)`
at a root uses one; the recursion depth grows with the chain length
instead of being constant. -/
theorem c5_find_recursion_depth :
    findDepth (sC7.keys.length + 2) sC7 (some "D") = 3 ∧
    findDepth (sC7.keys.length + 2) sC7 (some "A") = 1 := by
  refine ⟨by decide, by decide⟩

/-- C6: `kruskalMST` scans exactly the stably-sorted copy of the edge
list: the copy is a permutation of the input, sorted ascending by weight,
and for every weight value the subsequence of edges of that weight keeps
the original input order (ties broken by original position); the scan is
a function of that copy, so the selected sequence is deterministic. -/
theorem c6_stable_sorted_scan (V : List String) (E : List Edge)
    (hw : ∀ e ∈ E, e.weight ≠ none) :
    kruskalMST V E =
      (match kruskalFold (DisjointSet.init V) [] (some 0) (sortEdges E) with
        | none => none
        | some (_, sel, tc) => some (sel, tc)) ∧
    List.Perm (sortEdges E) E ∧
    (sortEdges E).Pairwise wle ∧
    (∀ W : JNum, (sortEdges E).filter (fun e => decide (e.weight = W)) =
      E.filter (fun e => decide (e.weight = W))) := by
  exact ⟨rfl, sortEdges_perm E, sortEdges_pairwise E hw,
    fun W => sortEdges_filter E W⟩

/-- C6 witness: a concrete input with equal-weight edges. -/
theorem c6_witness :
    kruskalMST ["A", "B", "C"]
        [⟨"A", "B", some 1⟩, ⟨"B", "C", some 1⟩] =
      (match kruskalFold (DisjointSet.init ["A", "B", "C"]) [] (some 0)
          (sortEdges [⟨"A", "B", some 1⟩, ⟨"B", "C", some 1⟩]) with
        | none => none
        | some (_, sel, tc) => some (sel, tc)) ∧
    List.Perm (sortEdges [⟨"A", "B", some 1⟩, ⟨"B", "C", some 1⟩])
      [⟨"A", "B", some 1⟩, ⟨"B", "C", some 1⟩] ∧
    (sortEdges [⟨"A", "B", some 1⟩, ⟨"B", "C", some 1⟩]).Pairwise wle ∧
    (∀ W : JNum,
      (sortEdges [⟨"A", "B", some 1⟩, ⟨"B", "C", some 1⟩]).filter
          (fun e => decide (e.weight = W)) =
        ([⟨"A", "B", some 1⟩, ⟨"B", "C", some 1⟩] : List Edge).filter
          (fun e => decide (e.weight = W))) :=
  c6_stable_sorted_scan ["A", "B", "C"]
    [⟨"A", "B", some 1⟩, ⟨"B", "C", some 1⟩] (by decide)

/-- C8: in every reachable state of the forest, `find` never touches any
rank, and `union` on registered vertices never decreases any rank; a rank
changes only when two roots of equal rank are merged, in which case the
surviving root's rank increases by exactly 1. -/
theorem c8_rank_monotone (V : List String) (s : DisjointSet)
    (hs : Reached V s) :
    (∀ x r s', s.find x = some (r, s') → ∀ z, s'.rank z = s.rank z) ∧
    (∀ a b fl s', a ∈ V → b ∈ V → s.union (some a) (some b) = some (fl, s') →
      (∀ z k, s.rank z = some k → ∃ k2, k ≤ k2 ∧ s'.rank z = some k2) ∧
      (∀ z, s'.rank z ≠ s.rank z →
        fl = true ∧ z = rootOf s (some a) ∧
        rootOf s (some a) ≠ rootOf s (some b) ∧
        s.rank (rootOf s (some a)) = s.rank (rootOf s (some b)) ∧
        ∃ k, s.rank z = some k ∧ s'.rank z = some (k + 1))) := by
  obtain ⟨⟨hso, hh, hdd⟩, ⟨hri1, hri2⟩, hrr⟩ := reached_inv V s hs
  constructor
  · intro x r s' hfind z
    obtain ⟨s'', heq, _, _, _, hrank'', _, _⟩ := find_spec s hh hso hdd x
    rw [heq] at hfind
    cases hfind
    exact hrank'' z
  · intro a b fl s' ha hb huni
    by_cases hroots : rootOf s (some a) = rootOf s (some b)
    · obtain ⟨s'', heq, _, _, _, hrank'', _⟩ :=
        union_spec_same s hh hso hdd (some a) (some b) hroots
      rw [heq] at huni
      cases huni
      refine ⟨?_, ?_⟩
      · intro z k hk
        exact ⟨k, le_rfl, by rw [hrank'']; exact hk⟩
      · intro z hz
        exact absurd (hrank'' z) hz
    · obtain ⟨s'', heq, _, _, _, hrank'', _⟩ :=
        union_spec_diff s hh hso hdd (some a) (some b) hroots
      rw [heq] at huni
      cases huni
      obtain ⟨a0, ha0, hra0⟩ := hrr a ha
      obtain ⟨b0, hb0, hrb0⟩ := hrr b hb
      obtain ⟨ka, hka0, hka⟩ := hri1 a0 ha0
      obtain ⟨kb, hkb0, hkb⟩ := hri1 b0 hb0
      have hrka : s.rank (rootOf s (some a)) = some ka := by rw [hra0]; exact hka
      have hrkb : s.rank (rootOf s (some b)) = some kb := by rw [hrb0]; exact hkb
      refine ⟨?_, ?_⟩
      · intro z k hk
        rw [hrank'' z]
        by_cases hcase : uBump s (rootOf s (some a)) (rootOf s (some b)) = true ∧
            z = rootOf s (some a)
        · rw [if_pos hcase]
          have hzk : s.rank (rootOf s (some a)) = some k := by
            rw [← hcase.2]
            exact hk
          rw [hzk]
          exact ⟨k + 1, by omega, rfl⟩
        · rw [if_neg hcase]
          exact ⟨k, le_rfl, hk⟩
      · intro z hz
        rw [hrank'' z] at hz
        by_cases hcase : uBump s (rootOf s (some a)) (rootOf s (some b)) = true ∧
            z = rootOf s (some a)
        · obtain ⟨hbump, hzrx⟩ := hcase
          have hequal : ka = kb :=
            (ubump_iff_int s _ _ ka kb hrka hrkb).1 hbump
          refine ⟨rfl, hzrx, hroots, ?_, ka, ?_, ?_⟩
          · rw [hrka, hrkb, hequal]
          · rw [hzrx]
            exact hrka
          · rw [hrank'' z, if_pos ⟨hbump, hzrx⟩, hrka]
            rfl
        · rw [if_neg hcase] at hz
          exact absurd rfl hz

/-- C8 witness: the theorem applied to the freshly initialised forest on
`["A", "B"]`. -/
theorem c8_witness :
    (∀ x r s', (DisjointSet.init ["A", "B"]).find x = some (r, s') →
      ∀ z, s'.rank z = (DisjointSet.init ["A", "B"]).rank z) ∧
    (∀ a b fl s', a ∈ ["A", "B"] → b ∈ ["A", "B"] →
      (DisjointSet.init ["A", "B"]).union (some a) (some b) = some (fl, s') →
      (∀ z k, (DisjointSet.init ["A", "B"]).rank z = some k →
        ∃ k2, k ≤ k2 ∧ s'.rank z = some k2) ∧
      (∀ z, s'.rank z ≠ (DisjointSet.init ["A", "B"]).rank z →
        fl = true ∧ z = rootOf (DisjointSet.init ["A", "B"]) (some a) ∧
        rootOf (DisjointSet.init ["A", "B"]) (some a) ≠
          rootOf (DisjointSet.init ["A", "B"]) (some b) ∧
        (DisjointSet.init ["A", "B"]).rank
            (rootOf (DisjointSet.init ["A", "B"]) (some a)) =
          (DisjointSet.init ["A", "B"]).rank
            (rootOf (DisjointSet.init ["A", "B"]) (some b)) ∧
        ∃ k, (DisjointSet.init ["A", "B"]).rank z = some k ∧
          s'.rank z = some (k + 1))) :=
  c8_rank_monotone ["A", "B"] (DisjointSet.init ["A", "B"]) Reached.init

/-- C9: in every reachable state, `find` succeeds, returns the chase
root, and its parent-link rewrites (path compression) change only the
representation: the root of every node — hence the partition into sets —
is unchanged, and an immediately repeated `find` returns the same root. -/
theorem c9_find_preserves_partition (V : List String) (s : DisjointSet)
    (hs : Reached V s) (x : JV) :
    ∃ s', s.find x = some (rootOf s x, s') ∧
      (∀ y, rootOf s' y = rootOf s y) ∧
      ∃ s'', s'.find x = some (rootOf s x, s'') ∧
        (∀ y, rootOf s'' y = rootOf s y) := by
  obtain ⟨⟨hso, hh, hdd⟩, _, _⟩ := reached_inv V s hs
  obtain ⟨s', heq, hso', hd', hroot', _, _, _⟩ := find_spec s hh hso hdd x
  obtain ⟨s'', heq2, _, _, hroot'', _, _, _⟩ := find_spec s' hh hso' hd' x
  refine ⟨s', heq, hroot', s'', ?_, fun y => (hroot'' y).trans (hroot' y)⟩
  rw [heq2, hroot' x]

/-- C9 witness: the theorem applied to the freshly initialised forest on
`["A", "B"]` at the registered vertex `A`. -/
theorem c9_witness :
    ∃ s', (DisjointSet.init ["A", "B"]).find (some "A") =
        some (rootOf (DisjointSet.init ["A", "B"]) (some "A"), s') ∧
      (∀ y, rootOf s' y = rootOf (DisjointSet.init ["A", "B"]) y) ∧
      ∃ s'', s'.find (some "A") =
          some (rootOf (DisjointSet.init ["A", "B"]) (some "A"), s'') ∧
        (∀ y, rootOf s'' y = rootOf (DisjointSet.init ["A", "B"]) y) :=
  c9_find_preserves_partition ["A", "B"] (DisjointSet.init ["A", "B"])
    Reached.init (some "A")

/-! ### Forests of edge lists -/

/-- An edge list is a forest when no edge's endpoints remain connected
after removing that edge: this rules out cycles, self-loops, and
duplicated parallel edges. -/
def IsForestP (F : List Edge) : Prop :=
  ∀ e ∈ F, ¬ Conn (F.erase e) e.u e.v

theorem conn_of_mem (F : List Edge) (e : Edge) (he : e ∈ F) :
    Conn F e.u e.v :=
  Relation.ReflTransGen.single (adj_single F e he)

theorem conn_erase_mono (F : List Edge) (f : Edge) (a b : String)
    (h : Conn (F.erase f) a b) : Conn F a b :=
  conn_mono (F.erase f) F (fun x hx => List.mem_of_mem_erase hx) a b h

theorem isForest_nil : IsForestP [] := by
  intro e he
  exact absurd he (List.not_mem_nil e)

theorem isForest_append (sel : List Edge) (e : Edge) (hf : IsForestP sel)
    (hne : ¬ Conn sel e.u e.v) : IsForestP (sel ++ [e]) := by
  have hnotmem : e ∉ sel := fun hmem => hne (conn_of_mem sel e hmem)
  intro f hfmem
  rcases List.mem_append.1 hfmem with hfsel | hfe
  · have herase : (sel ++ [e]).erase f = sel.erase f ++ [e] :=
      List.erase_append_left [e] hfsel
    rw [herase]
    intro hconn
    rcases (conn_append_single (sel.erase f) e f.u f.v).1 hconn with
      h1 | ⟨h1, h2⟩ | ⟨h1, h2⟩
    · exact hf f hfsel h1
    · refine hne ?_
      have hc1 : Conn sel f.u e.u := conn_erase_mono sel f _ _ h1
      have hc2 : Conn sel e.v f.v := conn_erase_mono sel f _ _ h2
      have hc3 : Conn sel f.u f.v := conn_of_mem sel f hfsel
      exact conn_trans sel e.u f.v e.v
        (conn_trans sel e.u f.u f.v (conn_symm sel f.u e.u hc1) hc3)
        (conn_symm sel e.v f.v hc2)
    · refine hne ?_
      have hc1 : Conn sel f.u e.v := conn_erase_mono sel f _ _ h1
      have hc2 : Conn sel e.u f.v := conn_erase_mono sel f _ _ h2
      have hc3 : Conn sel f.u f.v := conn_of_mem sel f hfsel
      exact conn_trans sel e.u f.u e.v
        (conn_trans sel e.u f.v f.u hc2 (conn_symm sel f.u f.v hc3))
        hc1
  · rw [List.mem_singleton] at hfe
    subst hfe
    have herase : (sel ++ [f]).erase f = sel := by
      rw [List.erase_append_right [f] hnotmem]
      simp
    rw [herase]
    exact hne

/-! ### Counting self-rooted registered vertices -/

/-- The number of registered vertices that are their own root. -/
def rcount (V : List String) (s : DisjointSet) : Nat :=
  (V.filter (fun a => decide (rootOf s (some a) = some a))).length

theorem filter_drop_one (p : String → Bool) (a0 : String) :
    ∀ (V : List String), V.Nodup → a0 ∈ V → p a0 = true →
    (V.filter (fun a => p a && !(decide (a = a0)))).length + 1 =
      (V.filter p).length := by
  intro V
  induction V with
  | nil =>
    intro _ h
    exact absurd h (List.not_mem_nil a0)
  | cons b t ih =>
    intro hnd hmem hp
    rcases List.mem_cons.1 hmem with rfl | hmem'
    · have hxf : (a0 :: t).filter (fun a => p a && !(decide (a = a0))) =
          t.filter (fun a => p a && !(decide (a = a0))) := by
        rw [List.filter_cons, if_neg (by simp)]
      have hxp : (a0 :: t).filter p = a0 :: t.filter p := by
        rw [List.filter_cons, if_pos hp]
      rw [hxf, hxp]
      have hsame : t.filter (fun a => p a && !(decide (a = a0))) = t.filter p := by
        refine List.filter_congr ?_
        intro a ha
        have hfa : a ≠ a0 := by
          intro heq
          subst heq
          exact (List.nodup_cons.1 hnd).1 ha
        simp [hfa]
      rw [hsame]
      simp
    · have hnd2 := (List.nodup_cons.1 hnd).2
      by_cases hpb : p b = true
      · have hba : b ≠ a0 := by
          intro heq
          subst heq
          exact (List.nodup_cons.1 hnd).1 hmem'
        have hxf : (b :: t).filter (fun a => p a && !(decide (a = a0))) =
            b :: t.filter (fun a => p a && !(decide (a = a0))) := by
          rw [List.filter_cons, if_pos (by simp [hpb, hba])]
        have hxp : (b :: t).filter p = b :: t.filter p := by
          rw [List.filter_cons, if_pos hpb]
        rw [hxf, hxp]
        simp only [List.length_cons]
        have hrec := ih hnd2 hmem' hp
        omega
      · have hpb2 : p b = false := by
          cases hc : p b
          · rfl
          · exact absurd hc hpb
        have hxf : (b :: t).filter (fun a => p a && !(decide (a = a0))) =
            t.filter (fun a => p a && !(decide (a = a0))) := by
          rw [List.filter_cons, if_neg (by simp [hpb2])]
        have hxp : (b :: t).filter p = t.filter p := by
          rw [List.filter_cons, if_neg (by simp [hpb2])]
        rw [hxf, hxp]
        exact ih hnd2 hmem' hp

theorem rcount_attach (V : List String) (hnd : V.Nodup) (s s' : DisjointSet)
    (wn l : JV) (hwl : wn ≠ l) (hlr : rootOf s l = l) (hwr : rootOf s wn = wn)
    (a0 : String) (ha0 : a0 ∈ V) (hla0 : l = some a0)
    (hremap : ∀ z, rootOf s' z = if rootOf s z = l then wn else rootOf s z) :
    rcount V s' + 1 = rcount V s := by
  unfold rcount
  have hpa0 : rootOf s (some a0) = some a0 := by
    rw [← hla0]
    exact hlr
  have key : ∀ a ∈ V, (decide (rootOf s' (some a) = some a)) =
      ((decide (rootOf s (some a) = some a)) && !(decide (a = a0))) := by
    intro a _
    by_cases haa : a = a0
    · subst haa
      rw [hremap (some a), if_pos (by rw [hpa0, hla0])]
      have hwna : wn ≠ some a := by
        rw [← hla0]
        exact hwl
      simp [hwna]
    · rw [hremap (some a)]
      by_cases hc : rootOf s (some a) = l
      · have hwna : wn ≠ some a := by
          intro heq
          rw [heq] at hwr
          rw [hwr] at hc
          rw [hc] at heq
          exact hwl heq
        have hpa : rootOf s (some a) ≠ some a := by
          rw [hc, hla0]
          intro heq
          cases heq
          exact haa rfl
        rw [if_pos hc]
        simp [hwna, hpa]
      · rw [if_neg hc]
        simp [haa]
  rw [List.filter_congr key]
  exact filter_drop_one (fun a => decide (rootOf s (some a) = some a)) a0 V hnd
    ha0 (by simp [hpa0])

/-! ### Updating the connectivity bridge across one scan step -/

theorem bridge_same (V : List String) (s s' : DisjointSet) (P : List Edge)
    (e : Edge) (heu : e.u ∈ V) (hev : e.v ∈ V)
    (hbr : ∀ a b, a ∈ V → b ∈ V →
      (rootOf s (some a) = rootOf s (some b) ↔ Conn P a b))
    (heq : rootOf s (some e.u) = rootOf s (some e.v))
    (hpres : ∀ z, rootOf s' z = rootOf s z) :
    ∀ a b, a ∈ V → b ∈ V →
      (rootOf s' (some a) = rootOf s' (some b) ↔ Conn (P ++ [e]) a b) := by
  intro a b ha hb
  rw [hpres (some a), hpres (some b), conn_append_single]
  constructor
  · intro h
    exact Or.inl ((hbr a b ha hb).1 h)
  · rintro (h | ⟨h1, h2⟩ | ⟨h1, h2⟩)
    · exact (hbr a b ha hb).2 h
    · have k1 := (hbr a e.u ha heu).2 h1
      have k2 := (hbr e.v b hev hb).2 h2
      rw [k1, heq, k2]
    · have k1 := (hbr a e.v ha hev).2 h1
      have k2 := (hbr e.u b heu hb).2 h2
      rw [k1, ← heq, k2]

theorem bridge_diff (V : List String) (s s' : DisjointSet) (P : List Edge)
    (e : Edge) (heu : e.u ∈ V) (hev : e.v ∈ V)
    (hbr : ∀ a b, a ∈ V → b ∈ V →
      (rootOf s (some a) = rootOf s (some b) ↔ Conn P a b))
    (hne : rootOf s (some e.u) ≠ rootOf s (some e.v))
    (hremap : ∀ z, rootOf s' z =
      if rootOf s z = uLoser s (rootOf s (some e.u)) (rootOf s (some e.v))
      then uWinner s (rootOf s (some e.u)) (rootOf s (some e.v))
      else rootOf s z) :
    ∀ a b, a ∈ V → b ∈ V →
      (rootOf s' (some a) = rootOf s' (some b) ↔ Conn (P ++ [e]) a b) := by
  intro a b ha hb
  have hdisj : rootOf s' (some a) = rootOf s' (some b) ↔
      (rootOf s (some a) = rootOf s (some b) ∨
        (rootOf s (some a) = rootOf s (some e.u) ∧
          rootOf s (some b) = rootOf s (some e.v)) ∨
        (rootOf s (some a) = rootOf s (some e.v) ∧
          rootOf s (some b) = rootOf s (some e.u))) := by
    rw [hremap (some a), hremap (some b)]
    rcases uwl_cases s (rootOf s (some e.u)) (rootOf s (some e.v)) with
      ⟨hw, hl⟩ | ⟨hw, hl⟩
    · rw [hw, hl]
      rw [remap_eq_iff _ _ _ _ (fun q => hne q)]
      constructor
      · rintro (h | ⟨h1, h2⟩ | ⟨h1, h2⟩)
        · exact Or.inl h
        · exact Or.inr (Or.inr ⟨h1, h2⟩)
        · exact Or.inr (Or.inl ⟨h1, h2⟩)
      · rintro (h | ⟨h1, h2⟩ | ⟨h1, h2⟩)
        · exact Or.inl h
        · exact Or.inr (Or.inr ⟨h1, h2⟩)
        · exact Or.inr (Or.inl ⟨h1, h2⟩)
    · rw [hw, hl]
      rw [remap_eq_iff _ _ _ _ (fun q => hne q.symm)]
  rw [hdisj, conn_append_single]
  constructor
  · rintro (h | ⟨h1, h2⟩ | ⟨h1, h2⟩)
    · exact Or.inl ((hbr a b ha hb).1 h)
    · exact Or.inr (Or.inl ⟨(hbr a e.u ha heu).1 h1,
        conn_symm P b e.v ((hbr b e.v hb hev).1 h2)⟩)
    · exact Or.inr (Or.inr ⟨(hbr a e.v ha hev).1 h1,
        conn_symm P b e.u ((hbr b e.u hb heu).1 h2)⟩)
  · rintro (h | ⟨h1, h2⟩ | ⟨h1, h2⟩)
    · exact Or.inl ((hbr a b ha hb).2 h)
    · exact Or.inr (Or.inl ⟨(hbr a e.u ha heu).2 h1,
        (hbr b e.v hb hev).2 (conn_symm P e.v b h2)⟩)
    · exact Or.inr (Or.inr ⟨(hbr a e.v ha hev).2 h1,
        (hbr b e.u hb heu).2 (conn_symm P e.u b h2)⟩)

/-! ### The scan on registered inputs: connectivity and counting -/

theorem kruskalFold_clean (V : List String) (hnd : V.Nodup) :
    ∀ (L P sel : List Edge) (s : DisjointSet) (tc : JNum),
    (∀ e ∈ L, e.u ∈ V ∧ e.v ∈ V) →
    WFS s → RootsReg V s →
    (∀ a b, a ∈ V → b ∈ V →
      (rootOf s (some a) = rootOf s (some b) ↔ Conn P a b)) →
    (∀ a b, a ∈ V → b ∈ V →
      (rootOf s (some a) = rootOf s (some b) ↔ Conn sel a b)) →
    IsForestP sel →
    sel.length + rcount V s = V.length →
    ∃ s2 sel2 tc2, kruskalFold s sel tc L = some (s2, sel2, tc2) ∧
      WFS s2 ∧ RootsReg V s2 ∧
      (∀ a b, a ∈ V → b ∈ V →
        (rootOf s2 (some a) = rootOf s2 (some b) ↔ Conn (P ++ L) a b)) ∧
      (∀ a b, a ∈ V → b ∈ V →
        (rootOf s2 (some a) = rootOf s2 (some b) ↔ Conn sel2 a b)) ∧
      IsForestP sel2 ∧
      sel2.length + rcount V s2 = V.length := by
  intro L
  induction L with
  | nil =>
    intro P sel s tc _ hwf hrr hbrP hbrS hforest hcount
    refine ⟨s, sel, tc, rfl, hwf, hrr, ?_, hbrS, hforest, hcount⟩
    intro a b ha hb
    rw [List.append_nil]
    exact hbrP a b ha hb
  | cons e rest ih =>
    intro P sel s tc hL hwf hrr hbrP hbrS hforest hcount
    obtain ⟨heu, hev⟩ := hL e (List.mem_cons_self e rest)
    have hLrest : ∀ f ∈ rest, f.u ∈ V ∧ f.v ∈ V :=
      fun f hf => hL f (List.mem_cons_of_mem e hf)
    obtain ⟨hso, hh, hdd⟩ := hwf
    have hassoc : P ++ e :: rest = (P ++ [e]) ++ rest := by
      rw [List.append_assoc]
      rfl
    by_cases heq : rootOf s (some e.u) = rootOf s (some e.v)
    · obtain ⟨s', huni, hso', hwf', hroots, hranks, _⟩ :=
        union_spec_same s hh hso hdd (some e.u) (some e.v) heq
      have hrr' : RootsReg V s' := by
        intro a ha
        obtain ⟨b, hb, hrb⟩ := hrr a ha
        exact ⟨b, hb, by rw [hroots]; exact hrb⟩
      have hbrP' := bridge_same V s s' P e heu hev hbrP heq hroots
      have hbrS' : ∀ a b, a ∈ V → b ∈ V →
          (rootOf s' (some a) = rootOf s' (some b) ↔ Conn sel a b) := by
        intro a b ha hb
        rw [hroots (some a), hroots (some b)]
        exact hbrS a b ha hb
      have hcount' : sel.length + rcount V s' = V.length := by
        have : rcount V s' = rcount V s := by
          unfold rcount
          refine congrArg List.length (List.filter_congr ?_)
          intro a _
          rw [hroots (some a)]
        rw [this]
        exact hcount
      obtain ⟨s2, sel2, tc2, hfold, rest_concl⟩ :=
        ih (P ++ [e]) sel s' tc hLrest ⟨hso', hwf'⟩ hrr' hbrP' hbrS'
          hforest hcount'
      refine ⟨s2, sel2, tc2, ?_, ?_⟩
      · rw [show kruskalFold s sel tc (e :: rest) =
          (match s.union (some e.u) (some e.v) with
            | none => none
            | some (true, s1) => kruskalFold s1 (sel ++ [e]) (jadd tc e.weight) rest
            | some (false, s1) => kruskalFold s1 sel tc rest) from rfl, huni]
        exact hfold
      · rw [hassoc]
        exact rest_concl
    · obtain ⟨s', huni, hso', hwf', hroots, hranks, _⟩ :=
        union_spec_diff s hh hso hdd (some e.u) (some e.v) heq
      obtain ⟨au, hau, hrau⟩ := hrr e.u heu
      obtain ⟨av, hav, hrav⟩ := hrr e.v hev
      have hrxfix : rootOf s (rootOf s (some e.u)) = rootOf s (some e.u) :=
        root_root s hh hdd (some e.u)
      have hryfix : rootOf s (rootOf s (some e.v)) = rootOf s (some e.v) :=
        root_root s hh hdd (some e.v)
      have hrr' : RootsReg V s' := by
        intro a ha
        obtain ⟨b, hb, hrb⟩ := hrr a ha
        rw [hroots (some a)]
        by_cases hcase : rootOf s (some a) =
            uLoser s (rootOf s (some e.u)) (rootOf s (some e.v))
        · rw [if_pos hcase]
          rcases uwl_cases s (rootOf s (some e.u)) (rootOf s (some e.v)) with
            ⟨hw, _⟩ | ⟨hw, _⟩
          · rw [hw]
            exact ⟨au, hau, hrau⟩
          · rw [hw]
            exact ⟨av, hav, hrav⟩
        · rw [if_neg hcase]
          exact ⟨b, hb, hrb⟩
      have hbrP' := bridge_diff V s s' P e heu hev hbrP heq hroots
      have hbrS' := bridge_diff V s s' sel e heu hev hbrS heq hroots
      have hnconn : ¬ Conn sel e.u e.v := by
        intro hc
        exact heq ((hbrS e.u e.v heu hev).2 hc)
      have hforest' : IsForestP (sel ++ [e]) := isForest_append sel e hforest hnconn
      have hwlne : uWinner s (rootOf s (some e.u)) (rootOf s (some e.v)) ≠
          uLoser s (rootOf s (some e.u)) (rootOf s (some e.v)) := by
        rcases uwl_cases s (rootOf s (some e.u)) (rootOf s (some e.v)) with
          ⟨hw, hl⟩ | ⟨hw, hl⟩
        · rw [hw, hl]
          exact heq
        · rw [hw, hl]
          exact fun q => heq q.symm
      have hcount' : (sel ++ [e]).length + rcount V s' = V.length := by
        have hloser : ∃ a0 ∈ V,
            uLoser s (rootOf s (some e.u)) (rootOf s (some e.v)) = some a0 := by
          rcases uwl_cases s (rootOf s (some e.u)) (rootOf s (some e.v)) with
            ⟨_, hl⟩ | ⟨_, hl⟩
          · rw [hl]
            exact ⟨av, hav, hrav⟩
          · rw [hl]
            exact ⟨au, hau, hrau⟩
        obtain ⟨a0, ha0, hla0⟩ := hloser
        have hlfix : rootOf s
            (uLoser s (rootOf s (some e.u)) (rootOf s (some e.v))) =
            uLoser s (rootOf s (some e.u)) (rootOf s (some e.v)) := by
          rcases uwl_cases s (rootOf s (some e.u)) (rootOf s (some e.v)) with
            ⟨_, hl⟩ | ⟨_, hl⟩
          · rw [hl]
            exact hryfix
          · rw [hl]
            exact hrxfix
        have hwfix : rootOf s
            (uWinner s (rootOf s (some e.u)) (rootOf s (some e.v))) =
            uWinner s (rootOf s (some e.u)) (rootOf s (some e.v)) := by
          rcases uwl_cases s (rootOf s (some e.u)) (rootOf s (some e.v)) with
            ⟨hw, _⟩ | ⟨hw, _⟩
          · rw [hw]
            exact hrxfix
          · rw [hw]
            exact hryfix
        have hdec := rcount_attach V hnd s s' _ _ hwlne hlfix hwfix a0 ha0
          hla0 hroots
        rw [List.length_append, List.length_singleton]
        omega
      obtain ⟨s2, sel2, tc2, hfold, rest_concl⟩ :=
        ih (P ++ [e]) (sel ++ [e]) s' (jadd tc e.weight) hLrest ⟨hso', hwf'⟩
          hrr' hbrP' hbrS' hforest' hcount'
      refine ⟨s2, sel2, tc2, ?_, ?_⟩
      · rw [show kruskalFold s sel tc (e :: rest) =
          (match s.union (some e.u) (some e.v) with
            | none => none
            | some (true, s1) => kruskalFold s1 (sel ++ [e]) (jadd tc e.weight) rest
            | some (false, s1) => kruskalFold s1 sel tc rest) from rfl, huni]
        exact hfold
      · rw [hassoc]
        exact rest_concl

/-! ### Counting equivalence classes over a vertex list -/

/-- One representative per class: take the head, drop its classmates,
recurse (with fuel to keep the definition kernel-computable). -/
def repsF (R : String → String → Bool) : Nat → List String → List String
  | _, [] => []
  | 0, _ :: _ => []
  | n + 1, a :: l => a :: repsF R n (l.filter (fun b => !(R a b)))

/-- The class representatives of `V` under the relation `R`. -/
def reps (R : String → String → Bool) (V : List String) : List String :=
  repsF R V.length V

/-- The number of `R`-classes represented in `V`. -/
def ccount (R : String → String → Bool) (V : List String) : Nat :=
  (reps R V).length

theorem repsF_fuel (R : String → String → Bool) :
    ∀ (n m : Nat) (l : List String), l.length ≤ n → l.length ≤ m →
      repsF R n l = repsF R m l := by
  intro n
  induction n with
  | zero =>
    intro m l hn _
    cases l with
    | nil => cases m <;> rfl
    | cons a t => exact absurd hn (by simp)
  | succ n ih =>
    intro m l hn hm
    cases l with
    | nil => cases m <;> rfl
    | cons a t =>
      cases m with
      | zero => exact absurd hm (by simp)
      | succ m =>
        show a :: repsF R n (t.filter (fun b => !(R a b))) =
          a :: repsF R m (t.filter (fun b => !(R a b)))
        refine congrArg (List.cons a) (ih m _ ?_ ?_)
        · exact le_trans (List.length_filter_le _ _) (by simpa using hn)
        · exact le_trans (List.length_filter_le _ _) (by simpa using hm)

theorem reps_cons (R : String → String → Bool) (a : String) (l : List String) :
    reps R (a :: l) = a :: reps R (l.filter (fun b => !(R a b))) := by
  show repsF R (l.length + 1) (a :: l) = _
  show a :: repsF R l.length (l.filter (fun b => !(R a b))) = _
  rw [repsF_fuel R l.length (l.filter (fun b => !(R a b))).length _
    (List.length_filter_le _ _) le_rfl]
  rfl

theorem reps_congr (R R' : String → String → Bool) :
    ∀ (n : Nat) (V : List String), V.length ≤ n →
    (∀ a ∈ V, ∀ b ∈ V, R a b = R' a b) → reps R V = reps R' V := by
  intro n
  induction n with
  | zero =>
    intro V hV _
    cases V with
    | nil => rfl
    | cons a t => exact absurd hV (by simp)
  | succ n ih =>
    intro V hV hR
    cases V with
    | nil => rfl
    | cons a t =>
      rw [reps_cons, reps_cons]
      have hfil : t.filter (fun b => !(R a b)) = t.filter (fun b => !(R' a b)) := by
        refine List.filter_congr ?_
        intro b hb
        rw [hR a (List.mem_cons_self a t) b (List.mem_cons_of_mem a hb)]
      rw [hfil]
      refine congrArg (List.cons a) (ih _ ?_ ?_)
      · exact le_trans (List.length_filter_le _ _) (by simpa using hV)
      · intro x hx y hy
        exact hR x (List.mem_cons_of_mem a (List.mem_of_mem_filter hx))
          y (List.mem_cons_of_mem a (List.mem_of_mem_filter hy))

theorem ccount_congr (R R' : String → String → Bool) (V : List String)
    (h : ∀ a ∈ V, ∀ b ∈ V, R a b = R' a b) : ccount R V = ccount R' V := by
  unfold ccount
  rw [reps_congr R R' V.length V le_rfl h]

theorem length_filter_split (p q : String → Bool) (l : List String) :
    (l.filter p).length =
      (l.filter (fun x => p x && q x)).length +
      (l.filter (fun x => p x && !(q x))).length := by
  induction l with
  | nil => rfl
  | cons a t ih =>
    by_cases hp : p a = true
    · by_cases hq : q a = true
      · rw [List.filter_cons, List.filter_cons, List.filter_cons,
          if_pos (by simp [hp]), if_pos (by simp [hp, hq]),
          if_neg (by simp [hp, hq])]
        simp only [List.length_cons]
        omega
      · have hq2 : q a = false := by
          cases hc : q a
          · rfl
          · exact absurd hc hq
        rw [List.filter_cons, List.filter_cons, List.filter_cons,
          if_pos (by simp [hp]), if_neg (by simp [hq2]),
          if_pos (by simp [hp, hq2])]
        simp only [List.length_cons]
        omega
    · have hp2 : p a = false := by
        cases hc : p a
        · rfl
        · exact absurd hc hp
      rw [List.filter_cons, List.filter_cons, List.filter_cons,
        if_neg (by simp [hp2]), if_neg (by simp [hp2]), if_neg (by simp [hp2])]
      exact ih

theorem nodup_filter_eq_single (c : String) :
    ∀ (l : List String), l.Nodup → c ∈ l →
    (l.filter (fun x => decide (x = c))).length = 1 := by
  intro l
  induction l with
  | nil =>
    intro _ h
    exact absurd h (List.not_mem_nil c)
  | cons a t ih =>
    intro hnd hmem
    rcases List.mem_cons.1 hmem with rfl | hmem2
    · rw [List.filter_cons, if_pos (by simp)]
      have hz : t.filter (fun x => decide (x = c)) = [] := by
        rw [List.filter_eq_nil_iff]
        intro x hx
        simp only [decide_eq_true_eq]
        intro heq
        subst heq
        exact (List.nodup_cons.1 hnd).1 hx
      rw [hz]
      rfl
    · have hac : a ≠ c := by
        intro heq
        subst heq
        exact (List.nodup_cons.1 hnd).1 hmem2
      rw [List.filter_cons, if_neg (by simp [hac])]
      exact ih (List.nodup_cons.1 hnd).2 hmem2

theorem roots_count (f : String → String) :
    ∀ (n : Nat) (V : List String), V.length ≤ n → V.Nodup →
    (∀ a ∈ V, f a ∈ V ∧ f (f a) = f a) →
    (V.filter (fun a => decide (f a = a))).length =
      ccount (fun a b => decide (f a = f b)) V := by
  intro n
  induction n with
  | zero =>
    intro V hV _ _
    cases V with
    | nil => rfl
    | cons a t => exact absurd hV (by simp)
  | succ n ih =>
    intro V hV hnd hf
    cases V with
    | nil => rfl
    | cons a t =>
      have hlen : (t.filter (fun b => !(decide (f a = f b)))).length ≤ n :=
        le_trans (List.length_filter_le _ _) (by simpa using hV)
      have hnd2 := (List.nodup_cons.1 hnd).2
      have hf2 : ∀ b ∈ t.filter (fun x => !(decide (f a = f x))),
          f b ∈ t.filter (fun x => !(decide (f a = f x))) ∧ f (f b) = f b := by
        intro b hb
        have hbt := List.mem_of_mem_filter hb
        have hbcond : ¬ (f a = f b) := by
          have := List.of_mem_filter hb
          simpa using this
        obtain ⟨hfbV, hffb⟩ := hf b (List.mem_cons_of_mem a hbt)
        have hfba : f b ≠ a := by
          intro heq
          refine hbcond ?_
          rw [← heq]
          conv_rhs => rw [← hffb]
        have hfbt : f b ∈ t := by
          rcases List.mem_cons.1 hfbV with h0 | h1
          · exact absurd h0 hfba
          · exact h1
        refine ⟨List.mem_filter.2 ⟨hfbt, ?_⟩, hffb⟩
        simp only [Bool.not_eq_eq_eq_not, Bool.not_true, decide_eq_false_iff_not]
        intro heq
        exact hbcond (by rw [heq, hffb])
      have hrec := ih _ hlen (List.Nodup.filter _ hnd2) hf2
      have hccount : ccount (fun a b => decide (f a = f b)) (a :: t) =
          1 + ccount (fun a b => decide (f a = f b))
            (t.filter (fun b => !(decide (f a = f b)))) := by
        unfold ccount
        rw [reps_cons]
        simp [Nat.add_comm]
      have hswap : (t.filter (fun b => !(decide (f a = f b)))).filter
          (fun x => decide (f x = x)) =
          t.filter (fun x => decide (f x = x) && !(decide (f x = f a))) := by
        rw [List.filter_filter]
        refine List.filter_congr ?_
        intro x _
        have hdc : (decide (f a = f x)) = (decide (f x = f a)) := by
          by_cases h : f a = f x
          · rw [decide_eq_true h, decide_eq_true h.symm]
          · rw [decide_eq_false h, decide_eq_false (fun q => h q.symm)]
        rw [hdc]
      have hswap_len := congrArg List.length hswap
      have hsplit := length_filter_split (fun x => decide (f x = x))
        (fun x => decide (f x = f a)) t
      by_cases haa : f a = a
      · have hgoal1 : ((a :: t).filter (fun x => decide (f x = x))).length =
            1 + (t.filter (fun x => decide (f x = x))).length := by
          rw [List.filter_cons, if_pos (by simpa using haa)]
          simp [Nat.add_comm]
        have hzero : (t.filter
            (fun x => decide (f x = x) && decide (f x = f a))).length = 0 := by
          have hz : t.filter (fun x => decide (f x = x) && decide (f x = f a))
              = [] := by
            rw [List.filter_eq_nil_iff]
            intro x hx
            simp only [Bool.and_eq_true, decide_eq_true_eq, not_and]
            intro hx1 hx2
            have hxa : x = a := by rw [← hx1, hx2, haa]
            subst hxa
            exact (List.nodup_cons.1 hnd).1 hx
          rw [hz]
          rfl
        rw [hgoal1, hccount, ← hrec, hswap_len]
        omega
      · have hgoal1 : ((a :: t).filter (fun x => decide (f x = x))).length =
            (t.filter (fun x => decide (f x = x))).length := by
          rw [List.filter_cons, if_neg (by simpa using haa)]
        have hone : (t.filter
            (fun x => decide (f x = x) && decide (f x = f a))).length = 1 := by
          have hfat : f a ∈ t := by
            obtain ⟨hfaV, _⟩ := hf a (List.mem_cons_self a t)
            rcases List.mem_cons.1 hfaV with h0 | h1
            · exact absurd h0 haa
            · exact h1
          have hffa := (hf a (List.mem_cons_self a t)).2
          have hcongr : t.filter
              (fun x => decide (f x = x) && decide (f x = f a)) =
              t.filter (fun x => decide (x = f a)) := by
            refine List.filter_congr ?_
            intro x _
            by_cases hx : x = f a
            · subst hx
              simp [hffa]
            · have hd1 : (decide (x = f a)) = false := decide_eq_false hx
              rw [hd1]
              by_cases h1 : f x = x
              · by_cases h2 : f x = f a
                · exact absurd (h1 ▸ h2) hx
                · rw [decide_eq_false h2]
                  simp
              · rw [decide_eq_false h1]
                simp
          rw [hcongr]
          exact nodup_filter_eq_single (f a) t hnd2 hfat
        rw [hgoal1, hccount, ← hrec, hswap_len]
        omega

/-! ### A computable connectivity test -/

/-- All endpoints occurring in an edge list. -/
def allVerts (E : List Edge) : List String :=
  E.foldr (fun e acc => e.u :: e.v :: acc) []

/-- Decidable adjacency. -/
def adjB (E : List Edge) (a b : String) : Bool :=
  E.any (fun e => (decide (e.u = a) && decide (e.v = b)) ||
    (decide (e.u = b) && decide (e.v = a)))

/-- One closure step: add every endpoint adjacent to the current set. -/
def closeStep (E : List Edge) (S : List String) : List String :=
  S ++ (allVerts E).dedup.filter
    (fun b => !(decide (b ∈ S)) && S.any (fun s => adjB E s b))

/-- The connected component of `a`, by iterating the closure step until
it must have stabilised. -/
def compOf (E : List Edge) (a : String) : List String :=
  (closeStep E)^[(allVerts E).dedup.length + 1] [a]

/-- Decidable connectivity. -/
def connB (E : List Edge) (a b : String) : Bool :=
  decide (b ∈ compOf E a)

theorem mem_allVerts (E : List Edge) (e : Edge) (he : e ∈ E) :
    e.u ∈ allVerts E ∧ e.v ∈ allVerts E := by
  induction E with
  | nil => exact absurd he (List.not_mem_nil e)
  | cons f t ih =>
    rcases List.mem_cons.1 he with rfl | he2
    · exact ⟨List.mem_cons.2 (Or.inl rfl),
        List.mem_cons.2 (Or.inr (List.mem_cons.2 (Or.inl rfl)))⟩
    · obtain ⟨h1, h2⟩ := ih he2
      exact ⟨List.mem_cons.2 (Or.inr (List.mem_cons.2 (Or.inr h1))),
        List.mem_cons.2 (Or.inr (List.mem_cons.2 (Or.inr h2)))⟩

theorem adjB_iff (E : List Edge) (a b : String) :
    adjB E a b = true ↔ Adj E a b := by
  unfold adjB Adj
  rw [List.any_eq_true]
  constructor
  · rintro ⟨e, he, hcond⟩
    refine ⟨e, he, ?_⟩
    simpa using hcond
  · rintro ⟨e, he, hcond⟩
    refine ⟨e, he, ?_⟩
    simpa using hcond

theorem closeStep_sub (E : List Edge) (S : List String) (x : String)
    (hx : x ∈ S) : x ∈ closeStep E S :=
  List.mem_append.2 (Or.inl hx)

theorem iterate_mono (E : List Edge) (a : String) :
    ∀ (m n : Nat), m ≤ n → ∀ x, x ∈ (closeStep E)^[m] [a] →
      x ∈ (closeStep E)^[n] [a] := by
  intro m n hmn
  induction n with
  | zero =>
    intro x hx
    have hm : m = 0 := Nat.le_zero.1 hmn
    rwa [hm] at hx
  | succ n ih =>
    intro x hx
    rcases Nat.lt_or_ge m (n + 1) with hlt | hge
    · have hx2 := ih (by omega) x hx
      rw [Function.iterate_succ_apply']
      exact closeStep_sub E _ x hx2
    · have hm : m = n + 1 := by omega
      rwa [hm] at hx

theorem iterate_subset (E : List Edge) (a : String) :
    ∀ (n : Nat) (x : String), x ∈ (closeStep E)^[n] [a] →
      x ∈ a :: (allVerts E).dedup := by
  intro n
  induction n with
  | zero =>
    intro x hx
    rw [Function.iterate_zero_apply, List.mem_singleton] at hx
    exact List.mem_cons.2 (Or.inl hx)
  | succ n ih =>
    intro x hx
    rw [Function.iterate_succ_apply'] at hx
    rcases List.mem_append.1 hx with h1 | h2
    · exact ih x h1
    · exact List.mem_cons.2 (Or.inr (List.mem_of_mem_filter h2))

theorem iterate_nodup (E : List Edge) (a : String) :
    ∀ (n : Nat), ((closeStep E)^[n] [a]).Nodup := by
  intro n
  induction n with
  | zero =>
    rw [Function.iterate_zero_apply]
    exact List.nodup_singleton a
  | succ n ih =>
    rw [Function.iterate_succ_apply']
    unfold closeStep
    rw [List.nodup_append]
    refine ⟨ih, List.Nodup.filter _ (List.nodup_dedup _), ?_⟩
    intro x hx1 hx2
    have := List.of_mem_filter hx2
    simp only [Bool.and_eq_true, Bool.not_eq_eq_eq_not, Bool.not_true,
      decide_eq_false_iff_not] at this
    exact this.1 hx1

theorem closeStep_stable (E : List Edge) (S : List String)
    (h : closeStep E S = S) :
    ∀ s ∈ S, ∀ b, Adj E s b → b ∈ S := by
  intro s hs b hadj
  have hfil : (allVerts E).dedup.filter
      (fun b => !(decide (b ∈ S)) && S.any (fun s => adjB E s b)) = [] := by
    have hlen := congrArg List.length h
    rw [show (closeStep E S).length = S.length + ((allVerts E).dedup.filter
      (fun b => !(decide (b ∈ S)) && S.any (fun s => adjB E s b))).length from
      by unfold closeStep; rw [List.length_append]] at hlen
    exact List.length_eq_zero.1 (by omega)
  obtain ⟨e, he, hor⟩ := hadj
  have hbv : b ∈ allVerts E := by
    rcases hor with ⟨h1, h2⟩ | ⟨h1, h2⟩
    · rw [← h2]
      exact (mem_allVerts E e he).2
    · rw [← h1]
      exact (mem_allVerts E e he).1
  have hbd : b ∈ (allVerts E).dedup := List.mem_dedup.2 hbv
  have := List.filter_eq_nil_iff.1 hfil b hbd
  simp only [Bool.and_eq_true, Bool.not_eq_eq_eq_not, Bool.not_true,
    decide_eq_false_iff_not, not_and] at this
  by_cases hbS : b ∈ S
  · exact hbS
  · exfalso
    refine this hbS ?_
    rw [List.any_eq_true]
    exact ⟨s, hs, (adjB_iff E s b).2 ⟨e, he, hor⟩⟩

theorem closeStep_length (E : List Edge) (S : List String) :
    (closeStep E S).length = S.length + ((allVerts E).dedup.filter
      (fun b => !(decide (b ∈ S)) && S.any (fun s => adjB E s b))).length := by
  unfold closeStep
  rw [List.length_append]

theorem closeStep_eq_self (E : List Edge) (S : List String)
    (hz : (allVerts E).dedup.filter
      (fun b => !(decide (b ∈ S)) && S.any (fun s => adjB E s b)) = []) :
    closeStep E S = S := by
  unfold closeStep
  rw [hz]
  simp

theorem compOf_stable (E : List Edge) (a : String) :
    closeStep E (compOf E a) = compOf E a := by
  have key : ∀ n : Nat,
      closeStep E ((closeStep E)^[n] [a]) = (closeStep E)^[n] [a] ∨
      ((closeStep E)^[n] [a]).length ≥ n + 1 := by
    intro n
    induction n with
    | zero => exact Or.inr (by simp)
    | succ n ih =>
      rcases ih with hstab | hlen
      · refine Or.inl ?_
        rw [Function.iterate_succ_apply', hstab, hstab]
      · by_cases hstab : closeStep E ((closeStep E)^[n] [a]) =
            (closeStep E)^[n] [a]
        · refine Or.inl ?_
          rw [Function.iterate_succ_apply', hstab, hstab]
        · refine Or.inr ?_
          rw [Function.iterate_succ_apply']
          have hfl := closeStep_length E ((closeStep E)^[n] [a])
          have hpos : 0 < ((allVerts E).dedup.filter
              (fun b => !(decide (b ∈ (closeStep E)^[n] [a])) &&
                ((closeStep E)^[n] [a]).any (fun s => adjB E s b))).length := by
            rcases Nat.eq_zero_or_pos (((allVerts E).dedup.filter
              (fun b => !(decide (b ∈ (closeStep E)^[n] [a])) &&
                ((closeStep E)^[n] [a]).any (fun s => adjB E s b))).length)
              with hz | hp
            · exact absurd (closeStep_eq_self E _ (List.length_eq_zero.1 hz)) hstab
            · exact hp
          omega
  rcases key ((allVerts E).dedup.length + 1) with hstab | hlen
  · exact hstab
  · exfalso
    have hnd := iterate_nodup E a ((allVerts E).dedup.length + 1)
    have hsub := iterate_subset E a ((allVerts E).dedup.length + 1)
    have hle : ((closeStep E)^[(allVerts E).dedup.length + 1] [a]).length ≤
        (a :: (allVerts E).dedup).length := by
      have h1 : ((closeStep E)^[(allVerts E).dedup.length + 1] [a]).toFinset.card =
          ((closeStep E)^[(allVerts E).dedup.length + 1] [a]).length :=
        List.toFinset_card_of_nodup hnd
      have h2 : ((closeStep E)^[(allVerts E).dedup.length + 1] [a]).toFinset ⊆
          (a :: (allVerts E).dedup).toFinset := by
        intro x hx
        rw [List.mem_toFinset] at hx ⊢
        exact hsub x hx
      have h3 := Finset.card_le_card h2
      have h4 : (a :: (allVerts E).dedup).toFinset.card ≤
          (a :: (allVerts E).dedup).length := List.toFinset_card_le _
      omega
    simp only [List.length_cons] at hle
    omega

theorem compOf_sound (E : List Edge) (a : String) :
    ∀ (n : Nat) (b : String), b ∈ (closeStep E)^[n] [a] → Conn E a b := by
  intro n
  induction n with
  | zero =>
    intro b hb
    rw [Function.iterate_zero_apply, List.mem_singleton] at hb
    rw [hb]
    exact conn_refl E a
  | succ n ih =>
    intro b hb
    rw [Function.iterate_succ_apply'] at hb
    rcases List.mem_append.1 hb with h1 | h2
    · exact ih b h1
    · have hcond := List.of_mem_filter h2
      simp only [Bool.and_eq_true, List.any_eq_true] at hcond
      obtain ⟨_, s, hs, hadj⟩ := hcond
      exact Relation.ReflTransGen.tail (ih s hs) ((adjB_iff E s b).1 hadj)

theorem conn_iff (E : List Edge) (a b : String) :
    connB E a b = true ↔ Conn E a b := by
  unfold connB
  rw [decide_eq_true_eq]
  constructor
  · intro h
    exact compOf_sound E a _ b h
  · intro h
    induction h with
    | refl =>
      refine iterate_mono E a 0 _ (by omega) a ?_
      rw [Function.iterate_zero_apply]
      exact List.mem_singleton.2 rfl
    | tail hac hadj ih =>
      rename_i c d
      have hstab := compOf_stable E a
      exact closeStep_stable E (compOf E a) hstab c ih d hadj

/-! ### Components, forests, and the C2 assembly -/

/-- The number of connected components that the edges `E` induce on the
vertex list `V` (vertices outside `V` may merge classes of `V` but are
not counted). -/
def components (V : List String) (E : List Edge) : Nat :=
  ccount (fun a b => connB E a b) V

/-- Decidable forest test. -/
def isForestB (F : List Edge) : Bool :=
  F.all (fun e => !(connB (F.erase e) e.u e.v))

theorem isForestB_iff (F : List Edge) : isForestB F = true ↔ IsForestP F := by
  unfold isForestB IsForestP
  rw [List.all_eq_true]
  constructor
  · intro h e he hc
    have h1 := h e he
    rw [Bool.not_eq_eq_eq_not, Bool.not_true] at h1
    rw [(conn_iff _ _ _).2 hc] at h1
    exact Bool.noConfusion h1
  · intro h e he
    rw [Bool.not_eq_eq_eq_not, Bool.not_true]
    cases hc : connB (F.erase e) e.u e.v
    · rfl
    · exact absurd ((conn_iff _ _ _).1 hc) (h e he)

theorem forest_nodup (F : List Edge) (hf : IsForestP F) : F.Nodup := by
  rw [List.nodup_iff_count_le_one]
  intro e
  by_contra hc
  push_neg at hc
  have hmem : e ∈ F := by
    rw [← List.count_pos_iff_mem]
    omega
  have hcnt : 0 < (F.erase e).count e := by
    rw [List.count_erase_self]
    omega
  have hmem2 : e ∈ F.erase e := List.count_pos_iff_mem.1 hcnt
  exact hf e hmem (conn_of_mem (F.erase e) e hmem2)

theorem kruskalFold_forest (V : List String) (hnd : V.Nodup) :
    ∀ (L P : List Edge) (s : DisjointSet) (tc : JNum),
    (∀ e ∈ L, e.u ∈ V ∧ e.v ∈ V) →
    WFS s → RootsReg V s →
    (∀ a b, a ∈ V → b ∈ V →
      (rootOf s (some a) = rootOf s (some b) ↔ Conn P a b)) →
    IsForestP (P ++ L) →
    ∃ s2 tc2, kruskalFold s P tc L = some (s2, P ++ L, tc2) := by
  intro L
  induction L with
  | nil =>
    intro P s tc _ _ _ _ _
    refine ⟨s, tc, ?_⟩
    rw [List.append_nil]
    rfl
  | cons e rest ih =>
    intro P s tc hL hwf hrr hbrP hforest
    obtain ⟨heu, hev⟩ := hL e (List.mem_cons_self e rest)
    obtain ⟨hso, hh, hdd⟩ := hwf
    have hnodup := forest_nodup _ hforest
    have heP : e ∉ P := by
      intro hmem
      have : ¬ (P ++ e :: rest).Nodup := by
        intro hnd2
        rw [List.nodup_append] at hnd2
        exact hnd2.2.2 hmem (List.mem_cons_self e rest)
      exact this hnodup
    have herase : (P ++ e :: rest).erase e = P ++ rest := by
      rw [List.erase_append_right (e :: rest) heP]
      simp
    have hnc : ¬ Conn P e.u e.v := by
      intro hc
      refine hforest e (List.mem_append.2 (Or.inr (List.mem_cons_self e rest))) ?_
      rw [herase]
      exact conn_mono P (P ++ rest) (fun f hf => List.mem_append.2 (Or.inl hf))
        e.u e.v hc
    have hne : rootOf s (some e.u) ≠ rootOf s (some e.v) := by
      intro hc
      exact hnc ((hbrP e.u e.v heu hev).1 hc)
    obtain ⟨s', huni, hso', hwf', hroots, hranks, _⟩ :=
      union_spec_diff s hh hso hdd (some e.u) (some e.v) hne
    obtain ⟨au, hau, hrau⟩ := hrr e.u heu
    obtain ⟨av, hav, hrav⟩ := hrr e.v hev
    have hrr' : RootsReg V s' := by
      intro a ha
      obtain ⟨b, hb, hrb⟩ := hrr a ha
      rw [hroots (some a)]
      by_cases hcase : rootOf s (some a) =
          uLoser s (rootOf s (some e.u)) (rootOf s (some e.v))
      · rw [if_pos hcase]
        rcases uwl_cases s (rootOf s (some e.u)) (rootOf s (some e.v)) with
          ⟨hw, _⟩ | ⟨hw, _⟩
        · rw [hw]
          exact ⟨au, hau, hrau⟩
        · rw [hw]
          exact ⟨av, hav, hrav⟩
      · rw [if_neg hcase]
        exact ⟨b, hb, hrb⟩
    have hbrP' := bridge_diff V s s' P e heu hev hbrP hne hroots
    have hforest' : IsForestP ((P ++ [e]) ++ rest) := by
      rw [List.append_assoc]
      simpa using hforest
    have hLrest : ∀ f ∈ rest, f.u ∈ V ∧ f.v ∈ V :=
      fun f hf => hL f (List.mem_cons_of_mem e hf)
    obtain ⟨s2, tc2, hfold⟩ :=
      ih (P ++ [e]) s' (jadd tc e.weight) hLrest ⟨hso', hwf'⟩ hrr' hbrP'
        hforest'
    refine ⟨s2, tc2, ?_⟩
    rw [show kruskalFold s P tc (e :: rest) =
      (match s.union (some e.u) (some e.v) with
        | none => none
        | some (true, s1) => kruskalFold s1 (P ++ [e]) (jadd tc e.weight) rest
        | some (false, s1) => kruskalFold s1 P tc rest) from rfl, huni]
    show kruskalFold s' (P ++ [e]) (jadd tc e.weight) rest =
      some (s2, P ++ e :: rest, tc2)
    rw [hfold, List.append_assoc]
    rfl

theorem rcount_eq_components (V : List String) (hnd : V.Nodup)
    (s : DisjointSet) (hwf : WFS s) (hrr : RootsReg V s) (L : List Edge)
    (hbr : ∀ a b, a ∈ V → b ∈ V →
      (rootOf s (some a) = rootOf s (some b) ↔ Conn L a b)) :
    rcount V s = ccount (fun a b => connB L a b) V := by
  obtain ⟨hso, hh, hdd⟩ := hwf
  classical
  set f : String → String := fun a => (rootOf s (some a)).getD a with hfdef
  have hfval : ∀ a ∈ V, ∃ b ∈ V, rootOf s (some a) = some b ∧ f a = b := by
    intro a ha
    obtain ⟨b, hb, hrb⟩ := hrr a ha
    exact ⟨b, hb, hrb, by rw [hfdef]; simp [hrb]⟩
  have hfprops : ∀ a ∈ V, f a ∈ V ∧ f (f a) = f a := by
    intro a ha
    obtain ⟨b, hb, hrb, hfa⟩ := hfval a ha
    refine ⟨by rw [hfa]; exact hb, ?_⟩
    obtain ⟨c, hc, hrc, hfb⟩ := hfval b hb
    have hbc : rootOf s (some b) = some b := by
      rw [← hrb]
      exact root_root s hh hdd (some a)
    rw [hfa, hfb]
    rw [hbc] at hrc
    cases hrc
    rfl
  have h1 := roots_count f V.length V le_rfl hnd hfprops
  have h2 : V.filter (fun a => decide (rootOf s (some a) = some a)) =
      V.filter (fun a => decide (f a = a)) := by
    refine List.filter_congr ?_
    intro a ha
    obtain ⟨b, hb, hrb, hfa⟩ := hfval a ha
    rw [hrb, hfa]
    by_cases hba : b = a
    · rw [decide_eq_true hba, decide_eq_true (by rw [hba])]
    · rw [decide_eq_false hba, decide_eq_false (by
        intro hc
        exact hba (Option.some_injective String hc))]
  have h3 : ccount (fun a b => decide (f a = f b)) V =
      ccount (fun a b => connB L a b) V := by
    refine ccount_congr _ _ V ?_
    intro a ha b hb
    obtain ⟨a1, ha1, hra1, hfa1⟩ := hfval a ha
    obtain ⟨b1, hb1, hrb1, hfb1⟩ := hfval b hb
    have hiff : f a = f b ↔ Conn L a b := by
      rw [hfa1, hfb1]
      rw [← hbr a b ha hb, hra1, hrb1]
      exact ⟨fun q => by rw [q], fun q => Option.some_injective String q⟩
    by_cases hc : Conn L a b
    · rw [decide_eq_true (hiff.2 hc), (conn_iff L a b).2 hc]
    · rw [decide_eq_false (fun q => hc (hiff.1 q))]
      cases hcb : connB L a b
      · rfl
      · exact absurd ((conn_iff L a b).1 hcb) hc
  unfold rcount
  rw [h2, h1, h3]

theorem init_bridge (V : List String) :
    ∀ a b, a ∈ V → b ∈ V →
      (rootOf (DisjointSet.init V) (some a) =
        rootOf (DisjointSet.init V) (some b) ↔ Conn [] a b) := by
  intro a b ha hb
  rw [init_root_reg V a ha, init_root_reg V b hb, conn_nil]
  exact ⟨fun q => Option.some_injective String q, fun q => by rw [q]⟩

theorem init_rootsreg (V : List String) : RootsReg V (DisjointSet.init V) :=
  fun a ha => ⟨a, ha, init_root_reg V a ha⟩

theorem init_rcount (V : List String) : rcount V (DisjointSet.init V) = V.length := by
  unfold rcount
  have hall : V.filter (fun a =>
      decide (rootOf (DisjointSet.init V) (some a) = some a)) = V := by
    rw [List.filter_eq_self]
    intro a ha
    rw [init_root_reg V a ha]
    simp
  rw [hall]

theorem connB_perm_congr (E E' : List Edge)
    (hmem : ∀ e, e ∈ E ↔ e ∈ E') (a b : String) :
    connB E a b = connB E' a b := by
  by_cases hc : Conn E a b
  · rw [(conn_iff E a b).2 hc,
      (conn_iff E' a b).2 (conn_mono E E' (fun e he => (hmem e).1 he) a b hc)]
  · have hc' : ¬ Conn E' a b := fun q =>
      hc (conn_mono E' E (fun e he => (hmem e).2 he) a b q)
    cases h1 : connB E a b
    · cases h2 : connB E' a b
      · rfl
      · exact absurd ((conn_iff E' a b).1 h2) hc'
    · exact absurd ((conn_iff E a b).1 h1) hc

theorem forest_size (V : List String) (hnd : V.Nodup) (F : List Edge)
    (hend : ∀ e ∈ F, e.u ∈ V ∧ e.v ∈ V) (hf : IsForestP F) :
    F.length + components V F = V.length := by
  obtain ⟨s2, tc2, hfold⟩ := kruskalFold_forest V hnd F [] (DisjointSet.init V)
    (some 0) hend (init_wfs V) (init_rootsreg V) (init_bridge V) (by simpa using hf)
  obtain ⟨s2', sel2, tc2', hfold', hwf2, hrr2, hbrP2, _, _, hcount2⟩ :=
    kruskalFold_clean V hnd F [] [] (DisjointSet.init V) (some 0) hend
      (init_wfs V) (init_rootsreg V) (init_bridge V) (init_bridge V)
      isForest_nil (by rw [init_rcount]; simp)
  rw [List.nil_append] at hfold
  rw [hfold] at hfold'
  cases hfold'
  have hcomp := rcount_eq_components V hnd s2 hwf2 hrr2 F
    (by simpa using hbrP2)
  unfold components
  omega

unseal Rat.add Rat.sub in
/-- C2 counterexample: with `V = [A, B]` and edges `A-X:1`, `X-B:2` whose
shared endpoint `X` is unregistered, the scan selects both edges (2
selected), while `|V| - components(V, E) = 2 - 1 = 1` (the edges connect
`A` to `B`), so the claimed size formula fails on inputs with
unregistered endpoints. -/
theorem c2_counterexample :
    kruskalMST ["A", "B"] [⟨"A", "X", some 1⟩, ⟨"X", "B", some 2⟩] =
      some ([⟨"A", "X", some 1⟩, ⟨"X", "B", some 2⟩], some 3) ∧
    ¬ ((2 : Nat) = (["A", "B"] : List String).length -
        components ["A", "B"] [⟨"A", "X", some 1⟩, ⟨"X", "B", some 2⟩]) := by
  refine ⟨by decide, by decide⟩

/-- C2 amended: for a duplicate-free vertex set and an edge list all of
whose endpoints are registered, `kruskalMST` returns (never errs, also on
disconnected inputs), the selected edges are acyclic, and their number is
`|V| - components(V, E)`. -/
theorem c2_selected_size (V : List String) (E : List Edge) (hnd : V.Nodup)
    (hend : ∀ e ∈ E, e.u ∈ V ∧ e.v ∈ V) :
    ∃ sel tc, kruskalMST V E = some (sel, tc) ∧ isForestB sel = true ∧
      sel.length + components V E = V.length := by
  have hends : ∀ e ∈ sortEdges E, e.u ∈ V ∧ e.v ∈ V :=
    fun e he => hend e ((sortEdges_mem E e).1 he)
  obtain ⟨s2, sel2, tc2, hfold, hwf2, hrr2, hbrP2, _, hforest2, hcount2⟩ :=
    kruskalFold_clean V hnd (sortEdges E) [] [] (DisjointSet.init V) (some 0)
      hends (init_wfs V) (init_rootsreg V) (init_bridge V) (init_bridge V)
      isForest_nil (by rw [init_rcount]; simp)
  refine ⟨sel2, tc2, ?_, (isForestB_iff sel2).2 hforest2, ?_⟩
  · unfold kruskalMST
    rw [hfold]
  · have hcomp := rcount_eq_components V hnd s2 hwf2 hrr2 (sortEdges E)
      (by simpa using hbrP2)
    have hcongr : ccount (fun a b => connB (sortEdges E) a b) V =
        ccount (fun a b => connB E a b) V := by
      refine ccount_congr _ _ V ?_
      intro a _ b _
      exact connB_perm_congr (sortEdges E) E (fun e => sortEdges_mem E e) a b
    unfold components
    omega

unseal Rat.add Rat.sub in
/-- C2 witness: a disconnected instance — vertices `A B C D`, a single
edge `A-B:5`; two vertices are isolated, three components, one
selected edge, and `1 + 3 = 4`. -/
theorem c2_witness :
    ∃ sel tc, kruskalMST ["A", "B", "C", "D"] [⟨"A", "B", some 5⟩] =
        some (sel, tc) ∧ isForestB sel = true ∧
      sel.length + components ["A", "B", "C", "D"] [⟨"A", "B", some 5⟩] =
        (["A", "B", "C", "D"] : List String).length :=
  c2_selected_size ["A", "B", "C", "D"] [⟨"A", "B", some 5⟩] (by decide)
    (by decide)

/-! ### Toolbox for the minimality proof -/

theorem filter_sublist_of_imp (p q : String → Bool)
    (himp : ∀ x, p x = true → q x = true) :
    ∀ (l : List String), List.Sublist (l.filter p) (l.filter q) := by
  intro l
  induction l with
  | nil => exact List.Sublist.refl _
  | cons a t ih =>
    by_cases hp : p a = true
    · rw [List.filter_cons, List.filter_cons, if_pos hp, if_pos (himp a hp)]
      exact ih.cons₂ a
    · rw [List.filter_cons, if_neg hp, List.filter_cons]
      by_cases hq : q a = true
      · rw [if_pos hq]
        exact ih.cons a
      · rw [if_neg hq]
        exact ih

theorem ccount_filter_le (R : String → String → Bool)
    (hsym : ∀ x y, R x y = R y x)
    (htrans : ∀ x y z, R x y = true → R y z = true → R x z = true) :
    ∀ (n : Nat) (t : List String), t.length ≤ n → ∀ a,
      ccount R t ≤ 1 + ccount R (t.filter (fun b => !(R a b))) := by
  intro n
  induction n with
  | zero =>
    intro t ht a
    cases t with
    | nil => simp
    | cons b t2 => exact absurd ht (by simp)
  | succ n ih =>
    intro t ht a
    cases t with
    | nil => simp
    | cons b t2 =>
      have hcc : ccount R (b :: t2) =
          1 + ccount R (t2.filter (fun x => !(R b x))) := by
        unfold ccount
        rw [reps_cons]
        simp [Nat.add_comm]
      by_cases hab : R a b = true
      · have hfil : (b :: t2).filter (fun x => !(R a x)) =
            t2.filter (fun x => !(R a x)) := by
          rw [List.filter_cons, if_neg (by simp [hab])]
        have hcongr : t2.filter (fun x => !(R a x)) =
            t2.filter (fun x => !(R b x)) := by
          refine List.filter_congr ?_
          intro x _
          have hiff : R a x = R b x := by
            cases hax : R a x
            · cases hbx : R b x
              · rfl
              · exact absurd (htrans a b x hab hbx) (by rw [hax]; simp)
            · cases hbx : R b x
              · have hba : R b a = true := by rw [hsym b a]; exact hab
                exact absurd (htrans b a x hba hax) (by rw [hbx]; simp)
              · rfl
          rw [hiff]
        rw [hcc, hfil, hcongr]
      · have hfil : (b :: t2).filter (fun x => !(R a x)) =
            b :: t2.filter (fun x => !(R a x)) := by
          rw [List.filter_cons, if_pos (by simp [hab])]
        have hcc2 : ccount R (b :: t2.filter (fun x => !(R a x))) =
            1 + ccount R ((t2.filter (fun x => !(R a x))).filter
              (fun x => !(R b x))) := by
          unfold ccount
          rw [reps_cons]
          simp [Nat.add_comm]
        have hswap : (t2.filter (fun x => !(R a x))).filter
            (fun x => !(R b x)) = (t2.filter (fun x => !(R b x))).filter
              (fun x => !(R a x)) := by
          rw [List.filter_filter, List.filter_filter]
          refine List.filter_congr ?_
          intro x _
          rw [Bool.and_comm]
        have hrec := ih (t2.filter (fun x => !(R b x)))
          (le_trans (List.length_filter_le _ _) (by simpa using ht)) a
        rw [hcc, hfil, hcc2, hswap]
        omega

theorem ccount_mono_sub (R R' : String → String → Bool)
    (hsub : ∀ x y, R x y = true → R' x y = true)
    (hsym : ∀ x y, R x y = R y x)
    (htrans : ∀ x y z, R x y = true → R y z = true → R x z = true) :
    ∀ (n : Nat) (l l' : List String), l.length ≤ n → List.Sublist l' l →
      ccount R' l' ≤ ccount R l := by
  intro n
  induction n with
  | zero =>
    intro l l' hl hsl
    cases l with
    | nil =>
      rw [List.sublist_nil.1 hsl]
      exact le_rfl
    | cons a t => exact absurd hl (by simp)
  | succ n ih =>
    intro l l' hl hsl
    cases l with
    | nil =>
      rw [List.sublist_nil.1 hsl]
      exact le_rfl
    | cons a t =>
      cases hsl with
      | cons _ hsl2 =>
        have h1 := ih t l' (by simpa using hl) hsl2
        have h2 := ccount_filter_le R hsym htrans t.length t le_rfl a
        have hcc : ccount R (a :: t) =
            1 + ccount R (t.filter (fun x => !(R a x))) := by
          unfold ccount
          rw [reps_cons]
          simp [Nat.add_comm]
        omega
      | cons₂ _ hsl2 =>
        rename_i rr
        have hccR : ccount R (a :: t) =
            1 + ccount R (t.filter (fun x => !(R a x))) := by
          unfold ccount
          rw [reps_cons]
          simp [Nat.add_comm]
        have hccR2 : ccount R' (a :: rr) =
            1 + ccount R' (rr.filter (fun x => !(R' a x))) := by
          unfold ccount
          rw [reps_cons]
          simp [Nat.add_comm]
        have hchain : List.Sublist (rr.filter (fun x => !(R' a x)))
            (t.filter (fun x => !(R a x))) := by
          refine List.Sublist.trans
            (filter_sublist_of_imp _ _ ?_ rr) (hsl2.filter _)
          intro x hx
          cases hax : R a x
          · simp
          · rw [hsub a x hax] at hx
            exact absurd hx (by simp)
        have hrec := ih (t.filter (fun x => !(R a x)))
          (rr.filter (fun x => !(R' a x)))
          (le_trans (List.length_filter_le _ _) (by simpa using hl)) hchain
        omega

theorem connB_symm (E : List Edge) (a b : String) : connB E a b = connB E b a := by
  by_cases hc : Conn E a b
  · rw [(conn_iff E a b).2 hc, (conn_iff E b a).2 (conn_symm E a b hc)]
  · have hc' : ¬ Conn E b a := fun q => hc (conn_symm E b a q)
    cases h1 : connB E a b
    · cases h2 : connB E b a
      · rfl
      · exact absurd ((conn_iff E b a).1 h2) hc'
    · exact absurd ((conn_iff E a b).1 h1) hc

theorem connB_trans (E : List Edge) (a b c : String) (h1 : connB E a b = true)
    (h2 : connB E b c = true) : connB E a c = true :=
  (conn_iff E a c).2 (conn_trans E a b c ((conn_iff E a b).1 h1)
    ((conn_iff E b c).1 h2))

/-- The numeric total cost of an edge list (meaningful when all weights
are numbers). -/
def costQ (l : List Edge) : ℚ := (l.map wq).sum

theorem costQ_perm (l l' : List Edge) (hp : List.Perm l l') :
    costQ l = costQ l' :=
  List.Perm.sum_eq (hp.map wq)

theorem foldl_jadd_num : ∀ (l : List Edge) (q : ℚ),
    (∀ e ∈ l, e.weight ≠ none) →
    l.foldl (fun a e => jadd a e.weight) (some q) = some (q + costQ l) := by
  intro l
  induction l with
  | nil =>
    intro q _
    simp [costQ]
  | cons e t ih =>
    intro q hw
    obtain ⟨w, hwv⟩ := Option.ne_none_iff_exists'.1 (hw e (List.mem_cons_self e t))
    show t.foldl (fun a e => jadd a e.weight) (jadd (some q) e.weight) = _
    rw [hwv]
    show t.foldl (fun a e => jadd a e.weight) (some (q + w)) = _
    rw [ih (q + w) (fun f hf => hw f (List.mem_cons_of_mem e hf))]
    unfold costQ
    rw [List.map_cons, List.sum_cons]
    have hwq : wq e = w := by
      unfold wq
      rw [hwv]
      rfl
    rw [hwq]
    rw [add_assoc]

theorem isForest_sublist (F F' : List Edge) (hsl : List.Sublist F' F)
    (hf : IsForestP F) : IsForestP F' := by
  intro e he hc
  refine hf e (hsl.subset he) ?_
  refine conn_mono (F'.erase e) (F.erase e) ?_ e.u e.v hc
  intro f hf2
  exact (hsl.erase e).subset hf2

theorem isForest_perm (F F' : List Edge) (hp : List.Perm F F')
    (hf : IsForestP F) : IsForestP F' := by
  intro e he hc
  refine hf e (hp.mem_iff.2 he) ?_
  refine conn_mono (F'.erase e) (F.erase e) ?_ e.u e.v hc
  intro f hf2
  exact ((hp.erase e).symm.subset) hf2

theorem conn_sub_of_edges (A B : List Edge)
    (h : ∀ e ∈ B, Conn A e.u e.v) :
    ∀ a b, Conn B a b → Conn A a b := by
  intro a b hc
  induction hc with
  | refl => exact conn_refl A a
  | tail hac hadj ih =>
    rename_i c d
    obtain ⟨e, he, hor⟩ := hadj
    have huv := h e he
    rcases hor with ⟨h1, h2⟩ | ⟨h1, h2⟩
    · rw [h1, h2] at huv
      exact conn_trans A a c d ih huv
    · rw [h1, h2] at huv
      exact conn_trans A a c d ih (conn_symm A d c huv)

theorem forest_exchange (V : List String) (hnd : V.Nodup) (A B : List Edge)
    (hendA : ∀ e ∈ A, e.u ∈ V ∧ e.v ∈ V) (hendB : ∀ e ∈ B, e.u ∈ V ∧ e.v ∈ V)
    (hfA : IsForestP A) (hfB : IsForestP B) (hlen : A.length < B.length) :
    ∃ e ∈ B, ¬ Conn A e.u e.v := by
  by_contra hcon
  push_neg at hcon
  have hsub := conn_sub_of_edges A B hcon
  have hsizeA := forest_size V hnd A hendA hfA
  have hsizeB := forest_size V hnd B hendB hfB
  have hmono : components V A ≤ components V B := by
    unfold components
    refine ccount_mono_sub (fun a b => connB B a b) (fun a b => connB A a b)
      ?_ ?_ ?_ V.length V V le_rfl (List.Sublist.refl V)
    · intro x y hxy
      exact (conn_iff A x y).2 (hsub x y ((conn_iff B x y).1 hxy))
    · intro x y
      exact connB_symm B x y
    · intro x y z h1 h2
      exact connB_trans B x y z h1 h2
  omega

theorem kruskalFold_append : ∀ (P Q : List Edge) (s : DisjointSet)
    (sel : List Edge) (tc : JNum) (s1 : DisjointSet) (sel1 : List Edge)
    (tc1 : JNum), kruskalFold s sel tc P = some (s1, sel1, tc1) →
    kruskalFold s sel tc (P ++ Q) = kruskalFold s1 sel1 tc1 Q := by
  intro P
  induction P with
  | nil =>
    intro Q s sel tc s1 sel1 tc1 h
    have h2 : some (s, sel, tc) = some (s1, sel1, tc1) := h
    injection h2 with h3
    injection h3 with h4 h5
    injection h5 with h6 h7
    rw [← h4, ← h6, ← h7]
    rfl
  | cons e rest ih =>
    intro Q s sel tc s1 sel1 tc1 h
    rw [show kruskalFold s sel tc (e :: rest) =
      (match s.union (some e.u) (some e.v) with
        | none => none
        | some (true, s2) => kruskalFold s2 (sel ++ [e]) (jadd tc e.weight) rest
        | some (false, s2) => kruskalFold s2 sel tc rest) from rfl] at h
    rw [show kruskalFold s sel tc ((e :: rest) ++ Q) =
      (match s.union (some e.u) (some e.v) with
        | none => none
        | some (true, s2) =>
          kruskalFold s2 (sel ++ [e]) (jadd tc e.weight) (rest ++ Q)
        | some (false, s2) => kruskalFold s2 sel tc (rest ++ Q)) from rfl]
    cases hu : s.union (some e.u) (some e.v) with
    | none =>
      rw [hu] at h
      exact Option.noConfusion h
    | some p =>
      obtain ⟨b, s2⟩ := p
      rw [hu] at h
      cases b
      · exact ih Q s2 sel tc s1 sel1 tc1 h
      · exact ih Q s2 (sel ++ [e]) (jadd tc e.weight) s1 sel1 tc1 h

theorem get_append_len : ∀ (l1 : List Edge) (a : Edge) (l2 : List Edge)
    (h : l1.length < (l1 ++ a :: l2).length),
    (l1 ++ a :: l2).get ⟨l1.length, h⟩ = a := by
  intro l1
  induction l1 with
  | nil =>
    intro a l2 h
    rfl
  | cons b t ih =>
    intro a l2 h
    exact ih a l2 (by simpa using h)

theorem get_mem_take : ∀ (l : List Edge) (m i : Nat) (hm : m < l.length),
    m < i → l.get ⟨m, hm⟩ ∈ l.take i := by
  intro l
  induction l with
  | nil =>
    intro m i hm _
    exact absurd hm (by simp)
  | cons a t ih =>
    intro m i hm hmi
    cases i with
    | zero => exact absurd hmi (by omega)
    | succ j =>
      cases m with
      | zero => exact List.mem_cons_self a (t.take j)
      | succ k =>
        exact List.mem_cons_of_mem a (ih k j (by simpa using hm) (by omega))

theorem take_get_eq : ∀ (l : List Edge) (n j : Nat)
    (hj : j < (l.take n).length),
    ∃ hj2 : j < l.length, (l.take n).get ⟨j, hj⟩ = l.get ⟨j, hj2⟩ := by
  intro l
  induction l with
  | nil =>
    intro n j hj
    exact absurd hj (by simp)
  | cons a t ih =>
    intro n j hj
    cases n with
    | zero => exact absurd hj (by simp)
    | succ n2 =>
      cases j with
      | zero => exact ⟨by simp, rfl⟩
      | succ k =>
        obtain ⟨h2, heq⟩ := ih n2 k (by simpa using hj)
        exact ⟨by simpa using Nat.succ_lt_succ h2, heq⟩

theorem pairwise_wle_get (l : List Edge) (hp : l.Pairwise wle) (i j : Nat)
    (hi : i < l.length) (hj : j < l.length) (hij : i ≤ j) :
    wq (l.get ⟨i, hi⟩) ≤ wq (l.get ⟨j, hj⟩) := by
  rcases Nat.lt_or_ge i j with hlt | hge
  · exact List.pairwise_iff_get.1 hp ⟨i, hi⟩ ⟨j, hj⟩ hlt
  · have heq : i = j := le_antisymm hij hge
    subst heq
    exact le_refl _

theorem costQ_le_of_pointwise : ∀ (l1 l2 : List Edge),
    l1.length = l2.length →
    (∀ i (h1 : i < l1.length) (h2 : i < l2.length),
      wq (l1.get ⟨i, h1⟩) ≤ wq (l2.get ⟨i, h2⟩)) →
    costQ l1 ≤ costQ l2 := by
  intro l1
  induction l1 with
  | nil =>
    intro l2 hlen _
    cases l2 with
    | nil => exact le_refl _
    | cons b t => exact absurd hlen (by simp)
  | cons a t ih =>
    intro l2 hlen hpt
    cases l2 with
    | nil => exact absurd hlen (by simp)
    | cons b t2 =>
      have h0 : wq a ≤ wq b := hpt 0 (by simp) (by simp)
      have hrec := ih t2 (by simpa using hlen)
        (fun i h1 h2 => hpt (i + 1) (Nat.succ_lt_succ h1) (Nat.succ_lt_succ h2))
      unfold costQ at hrec ⊢
      rw [List.map_cons, List.sum_cons, List.map_cons, List.sum_cons]
      exact add_le_add h0 hrec

theorem init_ph (V : List String) :
    ∀ b, ¬ (b ∈ V) → rootOf (DisjointSet.init V) (some b) =
      rootOf (DisjointSet.init V) none := by
  intro b hb
  rw [init_root_unreg V (some b) (fun a ha => by
    intro heq
    cases heq
    exact hb ha)]
  rw [init_root_unreg V none (fun a _ => Option.noConfusion)]

theorem take_succ_get : ∀ (l pre : List Edge) (a : Edge),
    l.take (pre.length + 1) = pre ++ [a] → ∀ (hm : pre.length < l.length),
    l.get ⟨pre.length, hm⟩ = a := by
  intro l
  induction l with
  | nil =>
    intro pre a _ hm
    exact absurd hm (by simp)
  | cons b t ih =>
    intro pre a h hm
    cases pre with
    | nil =>
      have h2 : [b] = [a] := h
      injection h2
    | cons c pre2 =>
      have h2 : b :: t.take (pre2.length + 1) = c :: (pre2 ++ [a]) := h
      injection h2 with h3 h4
      exact ih pre2 a h4 (by simpa using hm)

theorem greedy_pointwise (V : List String) (E : List Edge) (sel : List Edge)
    (tc : JNum) (hnd : V.Nodup)
    (hend : ∀ e ∈ E, e.u ∈ V ∧ e.v ∈ V)
    (hw : ∀ e ∈ E, e.weight ≠ none)
    (hrun : kruskalMST V E = some (sel, tc)) :
    ∀ (i : Nat) (hi : i < sel.length) (e : Edge), e ∈ E →
      ¬ Conn (sel.take i) e.u e.v → wq (sel.get ⟨i, hi⟩) ≤ wq e := by
  intro i hi e heE hnc
  obtain ⟨P, Q, hPQ⟩ := List.append_of_mem ((sortEdges_mem E e).2 heE)
  have hsp := sortEdges_pairwise E hw
  have hPle : ∀ f ∈ P, wq f ≤ wq e := by
    rw [hPQ, List.pairwise_append] at hsp
    intro f hf
    exact hsp.2.2 f hf e (List.mem_cons_self e Q)
  have hmemP : ∀ f ∈ P, f ∈ E := by
    intro f hf
    rw [← sortEdges_mem E f, hPQ]
    exact List.mem_append.2 (Or.inl hf)
  have hendP : ∀ f ∈ P, f.u ∈ V ∧ f.v ∈ V := fun f hf => hend f (hmemP f hf)
  obtain ⟨sM, selM, tcM, hfoldP, hwfM, hrrM, hbrPM, hbrSM, hforestM, hcountM⟩ :=
    kruskalFold_clean V hnd P [] [] (DisjointSet.init V) (some 0) hendP
      (init_wfs V) (init_rootsreg V) (init_bridge V) (init_bridge V)
      isForest_nil (by rw [init_rcount]; simp)
  obtain ⟨sM2, selM2, tcM2, hfoldP2, hwfM2, hphM2, selN, hselN, hsubN, htcN,
    hpropsN⟩ :=
    kruskalFold_gen (fun b => b ∈ V) P (DisjointSet.init V) [] (some 0)
      (init_wfs V) (init_ph V)
  rw [hfoldP] at hfoldP2
  simp only [Option.some.injEq, Prod.mk.injEq] at hfoldP2
  obtain ⟨hsM2, hselM2, htcM2⟩ := hfoldP2
  rw [← hsM2] at hphM2
  rw [← hselM2] at hselN
  have hselMP : List.Sublist selM P := by
    rw [hselN]
    exact hsubN
  have hselMle : ∀ f ∈ selM, wq f ≤ wq e := fun f hf => hPle f (hselMP.subset hf)
  unfold kruskalMST at hrun
  have happ := kruskalFold_append P (e :: Q) (DisjointSet.init V) [] (some 0)
    sM selM tcM hfoldP
  rw [hPQ, happ] at hrun
  cases hfe : kruskalFold sM selM tcM (e :: Q) with
  | none =>
    rw [hfe] at hrun
    exact Option.noConfusion hrun
  | some trip =>
    obtain ⟨sfin, selF, tcF⟩ := trip
    rw [hfe] at hrun
    have hrun2 : some (selF, tcF) = some (sel, tc) := hrun
    simp only [Option.some.injEq, Prod.mk.injEq] at hrun2
    obtain ⟨hselF, htcF⟩ := hrun2
    rw [hselF, htcF] at hfe
    obtain ⟨sG, selG, tcG, hfoldQ, hwfG, hphG, selN2, hselG, hsubN2, htcG2,
      hpropsG⟩ :=
      kruskalFold_gen (fun b => b ∈ V) (e :: Q) sM selM tcM hwfM hphM2
    rw [hfe] at hfoldQ
    simp only [Option.some.injEq, Prod.mk.injEq] at hfoldQ
    obtain ⟨hg1, hg2, hg3⟩ := hfoldQ
    have hseleq : sel = selM ++ selN2 := by
      rw [hg2]
      exact hselG
    have hselpre : sel.take selM.length = selM := by
      rw [hseleq]
      exact List.take_left selM selN2
    rcases Nat.lt_or_ge i selM.length with him | him
    · have hmem : sel.get ⟨i, hi⟩ ∈ selM := by
        rw [← hselpre]
        exact get_mem_take sel i selM.length hi him
      exact hselMle _ hmem
    · have heuV : e.u ∈ V := (hend e heE).1
      have hevV : e.v ∈ V := (hend e heE).2
      by_cases hroots : rootOf sM (some e.u) = rootOf sM (some e.v)
      · have hconn : Conn selM e.u e.v := (hbrSM e.u e.v heuV hevV).1 hroots
        refine absurd (conn_mono selM (sel.take i) ?_ e.u e.v hconn) hnc
        intro f hf
        have h1 : f ∈ sel.take selM.length := by
          rw [hselpre]
          exact hf
        have h2 : sel.take selM.length = (sel.take i).take selM.length := by
          rw [List.take_take, Nat.min_eq_left him]
        rw [h2] at h1
        exact List.take_subset _ _ h1
      · obtain ⟨hsoM, hhM, hdM⟩ := hwfM
        obtain ⟨s3, huni, hso3, hex3, hroots3, hranks3, hkeys3⟩ :=
          union_spec_diff sM hhM hsoM hdM (some e.u) (some e.v) hroots
        have hstep : kruskalFold sM selM tcM (e :: Q) =
            kruskalFold s3 (selM ++ [e]) (jadd tcM e.weight) Q := by
          rw [show kruskalFold sM selM tcM (e :: Q) =
            (match sM.union (some e.u) (some e.v) with
              | none => none
              | some (true, s1) =>
                kruskalFold s1 (selM ++ [e]) (jadd tcM e.weight) Q
              | some (false, s1) => kruskalFold s1 selM tcM Q) from rfl, huni]
        have hph3 : ∀ b, ¬ (b ∈ V) → rootOf s3 (some b) = rootOf s3 none := by
          intro b hb
          rw [hroots3 (some b), hroots3 none, hphM2 b hb]
        obtain ⟨h3f, hd3⟩ := hex3
        obtain ⟨sH, selH, tcH, hfoldQ2, _, _, selN3, hselH, hsubN3, htcH2,
          hpropsH⟩ :=
          kruskalFold_gen (fun b => b ∈ V) Q s3 (selM ++ [e])
            (jadd tcM e.weight) ⟨hso3, h3f, hd3⟩ hph3
        rw [hstep, hfoldQ2] at hfe
        simp only [Option.some.injEq, Prod.mk.injEq] at hfe
        obtain ⟨hh1, hh2, hh3⟩ := hfe
        have hseleq2 : sel = (selM ++ [e]) ++ selN3 := by
          rw [← hh2]
          exact hselH
        have hm : selM.length < sel.length := by
          rw [hseleq2, List.length_append, List.length_append]
          simp
          omega
        have htake : sel.take (selM.length + 1) = selM ++ [e] := by
          rw [hseleq2]
          have hlen2 : (selM ++ [e]).length = selM.length + 1 := by simp
          rw [← hlen2]
          exact List.take_left (selM ++ [e]) selN3
        have hget : sel.get ⟨selM.length, hm⟩ = e :=
          take_succ_get sel selM e htake hm
        rcases Nat.eq_or_lt_of_le him with heqmi | hlt
        · subst heqmi
          have hgt : sel.get ⟨selM.length, hi⟩ = e := hget
          rw [hgt]
        · have hmem : e ∈ sel.take i := by
            rw [← hget]
            exact get_mem_take sel selM.length i hm hlt
          exact absurd (conn_of_mem (sel.take i) e hmem) hnc

theorem connB_eq_of_iff (E E' : List Edge) (a b : String)
    (h : Conn E a b ↔ Conn E' a b) : connB E a b = connB E' a b := by
  by_cases hc : Conn E a b
  · rw [(conn_iff E a b).2 hc, (conn_iff E' a b).2 (h.1 hc)]
  · cases h1 : connB E a b
    · cases h2 : connB E' a b
      · rfl
      · exact absurd (h.2 ((conn_iff E' a b).1 h2)) hc
    · exact absurd ((conn_iff E a b).1 h1) hc

/-- C1: Kruskal optimality. For a duplicate-free vertex set, an edge list
whose endpoints are all registered and whose weights are all numbers, the
returned `totalCost` is the numeric sum of the selected weights, and it is
minimal: every forest `F` drawn from the same edge pool that connects the
same components as the selected edges costs at least as much. -/
theorem c1_totalCost_minimal (V : List String) (E F sel : List Edge)
    (tc : JNum) (hnd : V.Nodup)
    (hend : ∀ e ∈ E, e.u ∈ V ∧ e.v ∈ V)
    (hw : ∀ e ∈ E, e.weight ≠ none)
    (hrun : kruskalMST V E = some (sel, tc))
    (hFE : ∀ e ∈ F, e ∈ E)
    (hFf : isForestB F = true)
    (hFconn : ∀ a ∈ V, ∀ b ∈ V, connB F a b = connB sel a b) :
    tc = some (costQ sel) ∧ costQ sel ≤ costQ F := by
  have hends : ∀ e ∈ sortEdges E, e.u ∈ V ∧ e.v ∈ V :=
    fun e he => hend e ((sortEdges_mem E e).1 he)
  have hrun0 := hrun
  obtain ⟨s2, sel2, tc2, hfold, hwf2, hrr2, hbrP2, hbrS2, hforest2, hcount2⟩ :=
    kruskalFold_clean V hnd (sortEdges E) [] [] (DisjointSet.init V) (some 0)
      hends (init_wfs V) (init_rootsreg V) (init_bridge V) (init_bridge V)
      isForest_nil (by rw [init_rcount]; simp)
  obtain ⟨s3, sel3, tc3, hfold3, hwf3, hph3, selN, hselN, hsubN, htcN, hpropsN⟩ :=
    kruskalFold_gen (fun b => b ∈ V) (sortEdges E) (DisjointSet.init V) []
      (some 0) (init_wfs V) (init_ph V)
  rw [hfold] at hfold3
  simp only [Option.some.injEq, Prod.mk.injEq] at hfold3
  obtain ⟨hq1, hq2, hq3⟩ := hfold3
  unfold kruskalMST at hrun
  rw [hfold] at hrun
  have hrun2 : some (sel2, tc2) = some (sel, tc) := hrun
  simp only [Option.some.injEq, Prod.mk.injEq] at hrun2
  obtain ⟨hsel, htc⟩ := hrun2
  rw [hsel] at hbrS2 hforest2 hcount2 hq2
  rw [htc] at hq3
  have hselsub : List.Sublist sel (sortEdges E) := by
    rw [hq2, hselN]
    exact hsubN
  have hmemselE : ∀ e ∈ sel, e ∈ E :=
    fun f hf => (sortEdges_mem E f).1 (hselsub.subset hf)
  have hwsel : ∀ e ∈ sel, e.weight ≠ none :=
    fun f hf => hw f (hmemselE f hf)
  have hendsel : ∀ e ∈ sel, e.u ∈ V ∧ e.v ∈ V :=
    fun f hf => hend f (hmemselE f hf)
  have htc1 : tc = some (costQ sel) := by
    have hselN2 : sel = selN := by
      rw [hq2, hselN]
      simp
    rw [hq3, htcN, ← hselN2]
    rw [foldl_jadd_num sel 0 hwsel, zero_add]
  have hcompsel : rcount V s2 = components V E := by
    have hcomp := rcount_eq_components V hnd s2 hwf2 hrr2 (sortEdges E)
      (by simpa using hbrP2)
    have hcongr : ccount (fun a b => connB (sortEdges E) a b) V =
        ccount (fun a b => connB E a b) V :=
      ccount_congr _ _ V (fun a _ b _ =>
        connB_perm_congr (sortEdges E) E (fun e => sortEdges_mem E e) a b)
    unfold components
    rw [hcomp, hcongr]
  have hcompF : components V F = components V sel := by
    unfold components
    exact ccount_congr _ _ V hFconn
  have hcompsel2 : components V sel = components V E := by
    unfold components
    have h1 : ccount (fun a b => connB sel a b) V =
        ccount (fun a b => connB (sortEdges E) a b) V :=
      ccount_congr _ _ V (fun a ha b hb => connB_eq_of_iff _ _ a b
        (Iff.trans (hbrS2 a b ha hb).symm (by simpa using hbrP2 a b ha hb)))
    rw [h1]
    exact ccount_congr _ _ V (fun a _ b _ =>
      connB_perm_congr (sortEdges E) E (fun e => sortEdges_mem E e) a b)
  have hFfP : IsForestP F := (isForestB_iff F).1 hFf
  have hendF : ∀ e ∈ F, e.u ∈ V ∧ e.v ∈ V := fun e he => hend e (hFE e he)
  have hsizeF := forest_size V hnd F hendF hFfP
  have hsizesel : sel.length + components V E = V.length := by
    rw [← hcompsel]
    exact hcount2
  have hlenF : F.length = sel.length := by
    rw [hcompF, hcompsel2] at hsizeF
    omega
  have hwF : ∀ e ∈ F, e.weight ≠ none := fun e he => hw e (hFE e he)
  have hpermF := sortEdges_perm F
  have hspF := sortEdges_pairwise F hwF
  have hFfP2 : IsForestP (sortEdges F) :=
    isForest_perm F (sortEdges F) hpermF.symm hFfP
  have hlenSF : (sortEdges F).length = F.length := hpermF.length_eq
  have hpoint : ∀ (j : Nat) (h1 : j < sel.length)
      (h2 : j < (sortEdges F).length),
      wq (sel.get ⟨j, h1⟩) ≤ wq ((sortEdges F).get ⟨j, h2⟩) := by
    intro j h1 h2
    have hforA : IsForestP (sel.take j) :=
      isForest_sublist sel (sel.take j) (List.take_sublist j sel) hforest2
    have hforB : IsForestP ((sortEdges F).take (j + 1)) :=
      isForest_sublist _ _ (List.take_sublist (j + 1) (sortEdges F)) hFfP2
    have hendA : ∀ f ∈ sel.take j, f.u ∈ V ∧ f.v ∈ V :=
      fun f hf => hendsel f (List.take_subset _ _ hf)
    have hmemBF : ∀ f ∈ (sortEdges F).take (j + 1), f ∈ F :=
      fun f hf => (sortEdges_mem F f).1 (List.take_subset _ _ hf)
    have hendB : ∀ f ∈ (sortEdges F).take (j + 1), f.u ∈ V ∧ f.v ∈ V :=
      fun f hf => hendF f (hmemBF f hf)
    have hlenA : (sel.take j).length = j := by
      rw [List.length_take]
      exact Nat.min_eq_left (le_of_lt h1)
    have hlenB : ((sortEdges F).take (j + 1)).length = j + 1 := by
      rw [List.length_take]
      exact Nat.min_eq_left (Nat.succ_le_of_lt h2)
    obtain ⟨f, hfB, hfnc⟩ := forest_exchange V hnd (sel.take j)
      ((sortEdges F).take (j + 1)) hendA hendB hforA hforB (by omega)
    have hfE : f ∈ E := hFE f (hmemBF f hfB)
    have hg := greedy_pointwise V E sel tc hnd hend hw hrun0 j h1 f hfE hfnc
    obtain ⟨⟨jf, hjf⟩, hjeq⟩ := List.mem_iff_get.1 hfB
    obtain ⟨hjf2, hgeq⟩ := take_get_eq (sortEdges F) (j + 1) jf hjf
    have hjle : jf ≤ j := by
      rw [hlenB] at hjf
      omega
    have hwfj : wq f ≤ wq ((sortEdges F).get ⟨j, h2⟩) := by
      rw [← hjeq, hgeq]
      exact pairwise_wle_get (sortEdges F) hspF jf j hjf2 h2 hjle
    exact le_trans hg hwfj
  refine ⟨htc1, ?_⟩
  have hsum : costQ sel ≤ costQ (sortEdges F) := by
    refine costQ_le_of_pointwise sel (sortEdges F) ?_ hpoint
    rw [hlenSF, hlenF]
  rw [costQ_perm (sortEdges F) F hpermF] at hsum
  exact hsum

unseal Rat.add Rat.sub in
/-- C1 witness: on the triangle `A-B:1, B-C:2, A-C:3` the scan selects
`A-B` and `B-C` at total cost `3`; the alternative spanning forest
`A-B, A-C` connects the same components at cost `4 ≥ 3`. -/
theorem c1_witness :
    (some 3 : JNum) =
      some (costQ [⟨"A", "B", some 1⟩, ⟨"B", "C", some 2⟩]) ∧
      costQ [⟨"A", "B", some 1⟩, ⟨"B", "C", some 2⟩] ≤
        costQ [⟨"A", "B", some 1⟩, ⟨"A", "C", some 3⟩] :=
  c1_totalCost_minimal ["A", "B", "C"]
    [⟨"A", "B", some 1⟩, ⟨"B", "C", some 2⟩, ⟨"A", "C", some 3⟩]
    [⟨"A", "B", some 1⟩, ⟨"A", "C", some 3⟩]
    [⟨"A", "B", some 1⟩, ⟨"B", "C", some 2⟩]
    (some 3) (by decide) (by decide) (by decide) (by decide) (by decide)
    (by decide) (by decide)
